import Mathlib

/-!
Verification of the resource-partitioning and validator-assignment core of a
sharded blockchain implementation.

The Lean definitions below are a shallow embedding of the Rust sources:

* `congestion_info.rs` — `CongestionInfo`/`CongestionControl` backpressure
  state and decisions.  Machine integers (`u64`, `u128`) are embedded as `Nat`
  with explicit bounds where overflow matters; `f64` arithmetic is embedded as
  exact rational (`ℚ`) arithmetic, with Rust's `f64::round` (round half away
  from zero, here applied only to non-negative values) embedded as `round`.
* `shard_layout.rs` — account-to-shard routing and `ShardUId` codecs; strings
  are embedded as `List Char`, bytes as `Nat` values below 256.
* `validator_mandates/mod.rs` — mandate construction and the per-height
  `sample`; the abstract `rand::Rng` argument is embedded as an arbitrary
  stream of draws (`Nat → Nat`) plus a position, with `gen_range(0..=i)`
  drawing the next stream element reduced modulo `i + 1`, and the rand crate's
  Fisher–Yates `shuffle` spelled out over that stream.
* `epoch_info.rs` — block/chunk producer seed derivation, over an abstract
  32-byte hash function.

`&mut self` methods returning `Result<(), _>` are embedded as functions
returning the `Except` outcome together with the state after the call.
-/

/-! ## Machine-integer helpers -/

def u64Max : Nat := 2 ^ 64 - 1

def u128Max : Nat := 2 ^ 128 - 1

/-- Embedding of `u64::checked_add`: `some` of the sum unless it exceeds
`u64::MAX`. -/
def checkedAddU64 (a b : Nat) : Option Nat :=
  if a + b ≤ u64Max then some (a + b) else none

/-- Embedding of `u128::checked_add`. -/
def checkedAddU128 (a b : Nat) : Option Nat :=
  if a + b ≤ u128Max then some (a + b) else none

/-- Embedding of unsigned `checked_sub` (`u64` and `u128` alike): `some` of the
difference unless it would underflow. -/
def checkedSub (a b : Nat) : Option Nat :=
  if b ≤ a then some (a - b) else none

/-! ## CongestionInfo (congestion_info.rs) -/

/-- Fields of `CongestionInfoV1`: `delayed_receipts_gas: u128`,
`buffered_receipts_gas: u128`, `receipt_bytes: u64`, `allowed_shard: u16`. -/
structure CongestionInfoV1 where
  delayedReceiptsGas : Nat
  bufferedReceiptsGas : Nat
  receiptBytes : Nat
  allowedShard : Nat
  deriving DecidableEq, Repr

/-- The versioned `CongestionInfo` enum (single variant `V1`). -/
inductive CongestionInfo where
  | V1 (inner : CongestionInfoV1)
  deriving DecidableEq, Repr

namespace CongestionInfo

def delayedReceiptsGas : CongestionInfo → Nat
  | .V1 inner => inner.delayedReceiptsGas

def bufferedReceiptsGas : CongestionInfo → Nat
  | .V1 inner => inner.bufferedReceiptsGas

def receiptBytes : CongestionInfo → Nat
  | .V1 inner => inner.receiptBytes

def allowedShard : CongestionInfo → Nat
  | .V1 inner => inner.allowedShard

/-- `CongestionInfo::add_receipt_bytes`: the error outcome and the state after
the call (`&mut self` embedded by explicit state passing; on error the field
assignment never happens). -/
def addReceiptBytes (c : CongestionInfo) (bytes : Nat) :
    Except String Unit × CongestionInfo :=
  match c with
  | .V1 inner =>
    match checkedAddU64 inner.receiptBytes bytes with
    | some v => (Except.ok (), .V1 { inner with receiptBytes := v })
    | none => (Except.error "add_receipt_bytes", c)

/-- `CongestionInfo::remove_receipt_bytes`. -/
def removeReceiptBytes (c : CongestionInfo) (bytes : Nat) :
    Except String Unit × CongestionInfo :=
  match c with
  | .V1 inner =>
    match checkedSub inner.receiptBytes bytes with
    | some v => (Except.ok (), .V1 { inner with receiptBytes := v })
    | none => (Except.error "remove_receipt_bytes", c)

/-- `CongestionInfo::add_delayed_receipt_gas` (`gas as u128` added to a `u128`
field with `checked_add`). -/
def addDelayedReceiptGas (c : CongestionInfo) (gas : Nat) :
    Except String Unit × CongestionInfo :=
  match c with
  | .V1 inner =>
    match checkedAddU128 inner.delayedReceiptsGas gas with
    | some v => (Except.ok (), .V1 { inner with delayedReceiptsGas := v })
    | none => (Except.error "add_delayed_receipt_gas", c)

/-- `CongestionInfo::remove_delayed_receipt_gas`. -/
def removeDelayedReceiptGas (c : CongestionInfo) (gas : Nat) :
    Except String Unit × CongestionInfo :=
  match c with
  | .V1 inner =>
    match checkedSub inner.delayedReceiptsGas gas with
    | some v => (Except.ok (), .V1 { inner with delayedReceiptsGas := v })
    | none => (Except.error "remove_delayed_receipt_gas", c)

/-- `CongestionInfo::add_buffered_receipt_gas`. -/
def addBufferedReceiptGas (c : CongestionInfo) (gas : Nat) :
    Except String Unit × CongestionInfo :=
  match c with
  | .V1 inner =>
    match checkedAddU128 inner.bufferedReceiptsGas gas with
    | some v => (Except.ok (), .V1 { inner with bufferedReceiptsGas := v })
    | none => (Except.error "add_buffered_receipt_gas", c)

/-- `CongestionInfo::remove_buffered_receipt_gas`. -/
def removeBufferedReceiptGas (c : CongestionInfo) (gas : Nat) :
    Except String Unit × CongestionInfo :=
  match c with
  | .V1 inner =>
    match checkedSub inner.bufferedReceiptsGas gas with
    | some v => (Except.ok (), .V1 { inner with bufferedReceiptsGas := v })
    | none => (Except.error "remove_buffered_receipt_gas", c)

end CongestionInfo

/-! ## CongestionControl (congestion_info.rs) -/

/-- Modelled from the spec: the fields of the external
`near_parameters::config::CongestionControlConfig` record referenced by the
congestion-control code (`max_congestion_incoming_gas`,
`max_congestion_outgoing_gas`, `max_congestion_memory_consumption`,
`max_congestion_missed_chunks`, `max/min_outgoing_gas`, `max/min_tx_gas`,
`allowed_shard_outgoing_gas`, `outgoing_receipts_big/usual_size_limit`,
`reject_tx_congestion_threshold`); the last is an `f64`, embedded as `ℚ`. -/
structure CongestionControlConfig where
  maxCongestionIncomingGas : Nat
  maxCongestionOutgoingGas : Nat
  maxCongestionMemoryConsumption : Nat
  maxCongestionMissedChunks : Nat
  maxOutgoingGas : Nat
  minOutgoingGas : Nat
  maxTxGas : Nat
  minTxGas : Nat
  allowedShardOutgoingGas : Nat
  outgoingReceiptsBigSizeLimit : Nat
  outgoingReceiptsUsualSizeLimit : Nat
  rejectTxCongestionThreshold : ℚ
  deriving DecidableEq, Repr

/-- `clamped_f64_fraction(value, max)`: `value / max` clamped to `[0, 1]` (the
source asserts `max > 0`; `f64` division is embedded as exact division in
`ℚ`). -/
def clampedF64Fraction (value : Nat) (max : Nat) : ℚ :=
  if max ≤ value then 1 else (value : ℚ) / (max : ℚ)

/-- `mix(left, right, ratio)`: linear interpolation
`(left * (1 - ratio) + right * ratio).round() as u64`, with `f64` embedded as
`ℚ`; the value is non-negative for `ratio ∈ [0, 1]`, where Rust's round half
away from zero agrees with `round` (round half up). -/
def mix (left right : Nat) (frac : ℚ) : Nat :=
  (round ((left : ℚ) * (1 - frac) + (right : ℚ) * frac)).toNat

/-- The ephemeral `CongestionControl`: config, previous chunk's info, and the
missed-chunks count. -/
structure CongestionControl where
  config : CongestionControlConfig
  info : CongestionInfo
  missedChunksCount : Nat
  deriving DecidableEq, Repr

namespace CongestionControl

/-- `CongestionInfo::incoming_congestion`. -/
def incomingCongestion (cc : CongestionControl) : ℚ :=
  clampedF64Fraction cc.info.delayedReceiptsGas cc.config.maxCongestionIncomingGas

/-- `CongestionInfo::outgoing_congestion`. -/
def outgoingCongestion (cc : CongestionControl) : ℚ :=
  clampedF64Fraction cc.info.bufferedReceiptsGas cc.config.maxCongestionOutgoingGas

/-- `CongestionInfo::memory_congestion`. -/
def memoryCongestion (cc : CongestionControl) : ℚ :=
  clampedF64Fraction cc.info.receiptBytes cc.config.maxCongestionMemoryConsumption

/-- `CongestionControl::missed_chunks_congestion`: `0` when at most one chunk
was missed, else the clamped fraction of the missed-chunks count. -/
def missedChunksCongestion (cc : CongestionControl) : ℚ :=
  if cc.missedChunksCount ≤ 1 then 0
  else clampedF64Fraction cc.missedChunksCount cc.config.maxCongestionMissedChunks

/-- `CongestionControl::congestion_level`: max of the four measures, in the
source's association order. -/
def congestionLevel (cc : CongestionControl) : ℚ :=
  max (max (max cc.incomingCongestion cc.outgoingCongestion) cc.memoryCongestion)
    cc.missedChunksCongestion

/-- `CongestionControl::outgoing_gas_limit(sender_shard)`: at congestion level
exactly `1` only the allowed shard may send (`allowed_shard_outgoing_gas`),
otherwise interpolate between max and min outgoing gas. -/
def outgoingGasLimit (cc : CongestionControl) (senderShard : Nat) : Nat :=
  let congestion := cc.congestionLevel
  if congestion = 1 then
    if senderShard = cc.info.allowedShard then cc.config.allowedShardOutgoingGas
    else 0
  else
    mix cc.config.maxOutgoingGas cc.config.minOutgoingGas congestion

/-- `CongestionControl::process_tx_limit`. -/
def processTxLimit (cc : CongestionControl) : Nat :=
  mix cc.config.maxTxGas cc.config.minTxGas cc.incomingCongestion

end CongestionControl

/-- `RejectTransactionReason` (the congestion level is carried as `ℚ`, the
embedding of the source's `NotNan<f64>`). -/
inductive RejectTransactionReason where
  | incomingCongestion (congestionLevel : ℚ)
  | outgoingCongestion (congestionLevel : ℚ)
  | memoryCongestion (congestionLevel : ℚ)
  | missedChunks (missedChunks : Nat)
  deriving DecidableEq, Repr

/-- `ShardAcceptsTransactions`, the result of
`CongestionControl::shard_accepts_transactions`. -/
inductive ShardAcceptsTransactions where
  | yes
  | no (reason : RejectTransactionReason)
  deriving DecidableEq, Repr

/-- `CongestionControl::shard_accepts_transactions`: accept when the maximal
measure is strictly below the threshold, otherwise report the first measure in
the order missed, incoming, outgoing, memory that reaches the overall level.
(The source's `NotNan` conversion never takes its fallback branch here: a `ℚ`
is never NaN.) -/
def CongestionControl.shardAcceptsTransactions (cc : CongestionControl) :
    ShardAcceptsTransactions :=
  let congestionLevel :=
    max (max (max cc.incomingCongestion cc.outgoingCongestion) cc.memoryCongestion)
      cc.missedChunksCongestion
  if congestionLevel < cc.config.rejectTxCongestionThreshold then
    ShardAcceptsTransactions.yes
  else
    let reason :=
      if cc.missedChunksCongestion ≥ congestionLevel then
        RejectTransactionReason.missedChunks cc.missedChunksCount
      else if cc.incomingCongestion ≥ congestionLevel then
        RejectTransactionReason.incomingCongestion congestionLevel
      else if cc.outgoingCongestion ≥ congestionLevel then
        RejectTransactionReason.outgoingCongestion congestionLevel
      else
        RejectTransactionReason.memoryCongestion congestionLevel
    ShardAcceptsTransactions.no reason

/-! ## ShardLayout and account routing (shard_layout.rs) -/

/-- Rust's `<` on account ids (bytewise lexicographic comparison of the
underlying strings).  Account ids are embedded as `List Char` compared by code
point, which agrees with the bytewise order on the ASCII account alphabet. -/
def ltChars : List Char → List Char → Bool
  | [], [] => false
  | [], _ :: _ => true
  | _ :: _, [] => false
  | a :: restA, b :: restB =>
    if a.toNat < b.toNat then true
    else if b.toNat < a.toNat then false
    else ltChars restA restB

/-- The non-strict order on account ids: `a ≤ b` iff `¬ b < a`. -/
def leChars (a b : List Char) : Bool := !ltChars b a

/-- `ShardLayoutV1`: sorted boundary accounts plus the derived resharding maps
and the layout version. -/
structure ShardLayoutV1 where
  boundaryAccounts : List (List Char)
  shardsSplitMap : Option (List (List Nat))
  toParentShardMap : Option (List Nat)
  version : Nat
  deriving DecidableEq, Repr

/-- The versioned `ShardLayout` enum (single variant `V1`). -/
inductive ShardLayout where
  | V1 (v1 : ShardLayoutV1)
  deriving DecidableEq, Repr

/-- The boundary scan inside `account_id_to_shard_id`: the shard counter starts
at `0` and increments for each boundary not exceeding the account, stopping at
the first boundary greater than the account (the loop's `break`). -/
def boundaryScan (accountId : List Char) : List (List Char) → Nat
  | [] => 0
  | boundary :: rest =>
    if ltChars accountId boundary then 0 else boundaryScan accountId rest + 1

/-- `account_id_to_shard_id(account_id, shard_layout)` for `V1`. -/
def accountIdToShardId (accountId : List Char) (shardLayout : ShardLayout) : Nat :=
  match shardLayout with
  | .V1 v1 => boundaryScan accountId v1.boundaryAccounts

/-! ## ShardUId and its codecs (shard_layout.rs) -/

/-- `ShardUId`: layout version and shard id, both `u32`. -/
structure ShardUId where
  version : Nat
  shardId : Nat
  deriving DecidableEq, Repr

/-- `u32::to_le_bytes`: the four little-endian bytes of a `u32` value. -/
def u32ToLeBytes (n : Nat) : List Nat :=
  [n % 256, n / 2 ^ 8 % 256, n / 2 ^ 16 % 256, n / 2 ^ 24 % 256]

/-- `u32::from_le_bytes` on a four-byte list. -/
def u32FromLeBytes (bytes : List Nat) : Nat :=
  bytes.getD 0 0 + 2 ^ 8 * bytes.getD 1 0 + 2 ^ 16 * bytes.getD 2 0 +
    2 ^ 24 * bytes.getD 3 0

/-- `ShardUId::to_bytes`: 8 bytes, little-endian `version` in positions `0..4`
followed by little-endian `shard_id` in positions `4..8` (the source writes the
two 4-byte slices of a zeroed 8-byte array). -/
def ShardUId.toBytes (uid : ShardUId) : List Nat :=
  u32ToLeBytes uid.version ++ u32ToLeBytes uid.shardId

/-- `TryFrom<&[u8]> for ShardUId`: reject lengths other than 8, else read the
two little-endian `u32` halves. -/
def ShardUId.tryFromBytes (bytes : List Nat) : Except String ShardUId :=
  if bytes.length ≠ 8 then Except.error "incorrect length for ShardUId"
  else Except.ok
    { version := u32FromLeBytes (bytes.take 4),
      shardId := u32FromLeBytes (bytes.drop 4) }

/-- Decimal digit to its ASCII character, as Rust's integer formatting emits. -/
def digitChar (d : Nat) : Char := Char.ofNat (48 + d)

/-- Fuel-driven body of the decimal printer (structural recursion so that the
kernel can evaluate it; `natToChars` supplies sufficient fuel). -/
def natToCharsGo : Nat → Nat → List Char
  | 0, _ => []
  | fuel + 1, n =>
    if n < 10 then [digitChar n]
    else natToCharsGo fuel (n / 10) ++ [digitChar (n % 10)]

/-- The decimal representation of a natural number, most significant digit
first — the embedding of Rust's `Display` for unsigned integers. -/
def natToChars (n : Nat) : List Char := natToCharsGo (n + 1) n

/-- `Display for ShardUId`: the character sequence of the string written by
`write!(f, "s{}.v{}", shard_id, version)`. -/
def ShardUId.toChars (uid : ShardUId) : List Char :=
  's' :: natToChars uid.shardId ++ '.' :: 'v' :: natToChars uid.version

/-- `str::split_once(".")`: split at the first occurrence of the separator,
`none` when the separator does not occur. -/
def splitOnce (sep : Char) : List Char → Option (List Char × List Char)
  | [] => none
  | c :: rest =>
    if c = sep then some ([], rest)
    else (splitOnce sep rest).map (fun p => (c :: p.1, p.2))

/-- Accumulator pass of unsigned decimal parsing: fails on any non-digit
character. -/
def parseDigitsAcc (acc : Nat) : List Char → Option Nat
  | [] => some acc
  | c :: rest =>
    if c.isDigit then parseDigitsAcc (acc * 10 + (c.toNat - 48)) rest
    else none

/-- `str::parse::<u32>()`: an optional leading `+`, then at least one digit,
with the value bounded by `u32::MAX`.  (Rust fails on overflow during its
digit fold; since the accumulator is monotone this accepts exactly the same
strings with the same values.)  First the digit-string part. -/
def parseU32Digits (digits : List Char) : Option Nat :=
  if digits.isEmpty then none
  else
    match parseDigitsAcc 0 digits with
    | some v => if v ≤ 2 ^ 32 - 1 then some v else none
    | none => none

/-- `str::parse::<u32>()` continued: strip one optional leading `+`, then
parse the digits. -/
def parseU32 (s : List Char) : Option Nat :=
  parseU32Digits (if s.head? = some '+' then s.tail else s)

/-- `FromStr for ShardUId`: split at the first `.`, strip the `v` from the
version part and parse it, strip the `s` from the shard part and parse it, in
the source's order of checks. -/
def ShardUId.fromChars (s : List Char) : Except String ShardUId :=
  match splitOnce '.' s with
  | none => Except.error "shard version and number must be separated by a dot"
  | some (shardStr, versionStr) =>
    match versionStr with
    | 'v' :: versionDigits =>
      match parseU32 versionDigits with
      | none => Except.error "shard version after v must be a number"
      | some version =>
        match shardStr with
        | 's' :: shardDigits =>
          match parseU32 shardDigits with
          | none => Except.error "shard id after s must be a number"
          | some shardId => Except.ok { version := version, shardId := shardId }
        | _ => Except.error "shard id must start with s"
    | _ => Except.error "shard version must start with v"

/-! ## Validator mandates (validator_mandates/mod.rs, types.rs) -/

/-- `ValidatorStake` (`V1`): account id, public key (irrelevant to mandate
math, kept as an opaque number) and the `u128` stake. -/
structure ValidatorStake where
  accountId : String
  publicKey : Nat
  stake : Nat
  deriving DecidableEq, Repr

instance : Inhabited ValidatorStake := ⟨⟨"", 0, 0⟩⟩

/-- `ValidatorStake::num_mandates`: `stake / stake_per_mandate` (integer
division is the floor); the source then casts into `u16` with
`try_from(..).expect(..)`, so the embedding is faithful whenever the quotient
fits `u16` (a hypothesis of the theorems using it). -/
def ValidatorStake.numMandates (v : ValidatorStake) (stakePerMandate : Nat) : Nat :=
  v.stake / stakePerMandate

/-- `ValidatorStake::partial_mandate_weight`: `stake % stake_per_mandate`. -/
def ValidatorStake.partialWeight (v : ValidatorStake) (stakePerMandate : Nat) : Nat :=
  v.stake % stakePerMandate

/-- `ValidatorMandatesConfig`: target mandates per shard and the number of
shards (`num_shards > 0` is asserted at construction). -/
structure ValidatorMandatesConfig where
  targetMandatesPerShard : Nat
  numShards : Nat
  deriving DecidableEq, Repr

/-- `ValidatorMandates`: config, the stake one whole mandate is worth, the
mandates vector (validator id `i` occurring once per mandate it holds) and the
partials vector of `(validator id, weight)` pairs. -/
structure ValidatorMandates where
  config : ValidatorMandatesConfig
  stakePerMandate : Nat
  mandates : List Nat
  partials : List (Nat × Nat)
  deriving DecidableEq, Repr

/-- The mandates vector built by `ValidatorMandates::new`: for each validator
index `i` in ascending order, push `i` once per whole mandate. -/
def newMandates (stakePerMandate : Nat) (validators : List ValidatorStake) :
    List Nat :=
  (List.range validators.length).flatMap fun i =>
    List.replicate ((validators.getD i default).numMandates stakePerMandate) i

/-- The partials vector built by `ValidatorMandates::new`: for each validator
index `i` in ascending order, push `(i, partial weight)` when the weight is
positive. -/
def newPartials (stakePerMandate : Nat) (validators : List ValidatorStake) :
    List (Nat × Nat) :=
  (List.range validators.length).filterMap fun i =>
    let w := (validators.getD i default).partialWeight stakePerMandate
    if 0 < w then some (i, w) else none

/-- `ValidatorMandates::new`.  The stake-per-mandate price is the result of
`compute_price::compute_mandate_price` — modelled from the spec: that module is
not among the sources and the spec leaves the exact search algorithm
unspecified, so the price is taken as an explicit argument and the theorems
hold for every value it could return. -/
def ValidatorMandates.new (config : ValidatorMandatesConfig)
    (stakePerMandate : Nat) (validators : List ValidatorStake) :
    ValidatorMandates :=
  { config := config,
    stakePerMandate := stakePerMandate,
    mandates := newMandates stakePerMandate validators,
    partials := newPartials stakePerMandate validators }

/-! ## The rng embedding and Fisher–Yates shuffling -/

/-- An abstract `rand::Rng` state: a stream of draws and the current position.
Every concrete rng corresponds to some stream; `gen_range(0..=i)` is embedded
as the next stream element reduced modulo `i + 1`. -/
structure RngState where
  stream : Nat → Nat
  pos : Nat

/-- One bounded draw from the rng (the embedding of `gen_range(0..bound)`). -/
def RngState.draw (r : RngState) (bound : Nat) : Nat × RngState :=
  (r.stream r.pos % bound, ⟨r.stream, r.pos + 1⟩)

/-- `slice::swap(i, j)` on lists: exchange the elements at two in-bounds
positions, identity when either index is out of bounds (the in-bounds case is
the only one the shuffle reaches). -/
def swapL (l : List α) (i j : Nat) : List α :=
  match l.get? i, l.get? j with
  | some a, some b => (l.set i b).set j a
  | _, _ => l

/-- The loop of the rand crate's Fisher–Yates `shuffle`: for `i` from
`len - 1` down to `1`, swap position `i` with `gen_range(0..=i)`.  The
argument `i` is the current swap position; at `0` the loop is over. -/
def shuffleGo (l : List α) (i : Nat) (r : RngState) : List α × RngState :=
  match i with
  | 0 => (l, r)
  | j + 1 =>
    let (k, r1) := r.draw (j + 2)
    shuffleGo (swapL l (j + 1) k) j r1

/-- `SliceRandom::shuffle`. -/
def shuffle (l : List α) (r : RngState) : List α × RngState :=
  shuffleGo l (l.length - 1) r

/-- Modelled from the spec: `ShuffledShardIds::new` draws a random permutation
of the shard ids `0..num_shards` (only referenced by the sources); its
`get_alias(shard_id)` is the element at position `shard_id`. -/
def shuffledShardIds (numShards : Nat) (r : RngState) : List Nat × RngState :=
  shuffle (List.range numShards) r

/-- `ShuffledShardIds::get_alias`. -/
def getAlias (ids : List Nat) (shardId : Nat) : Nat := ids.getD shardId 0

/-! ## Distribution of mandates over shards (`ValidatorMandates::sample`) -/

/-- The embedding of `HashMap::entry(v).or_default() += amt` on an association
list: increase the existing entry for `v`, or append a fresh one. -/
def bump (l : List (Nat × Nat)) (v amt : Nat) : List (Nat × Nat) :=
  match l with
  | [] => [(v, amt)]
  | (w, b) :: rest =>
    if w = v then (w, b + amt) :: rest else (w, b) :: bump rest v amt

/-- Replace the element at one position by applying a function (identity out of
bounds); used for in-place updates of the per-shard assignment vector. -/
def modifyAt (l : List α) (i : Nat) (f : α → α) : List α :=
  match l, i with
  | [], _ => []
  | a :: rest, 0 => f a :: rest
  | a :: rest, n + 1 => a :: modifyAt rest n f

/-- `HashMap` indexing `map[v]` on an association list (the callers only index
with keys present in the map). -/
def lookupA (l : List (Nat × Nat)) (v : Nat) : Nat :=
  match l with
  | [] => 0
  | (w, b) :: rest => if w = v then b else lookupA rest v

/-- Fuel-driven `(start..len).step_by(step)` (structural recursion so the
kernel can evaluate it; `stepIndices` supplies sufficient fuel for any positive
step). -/
def stepGo (len step : Nat) : Nat → Nat → List Nat
  | 0, _ => []
  | fuel + 1, s => if s < len then s :: stepGo len step fuel (s + step) else []

/-- The index iterator `(start..len).step_by(step)` of the distribution loops
(the source only uses positive steps — `step_by(0)` panics in Rust). -/
def stepIndices (start len step : Nat) : List Nat :=
  stepGo len step (len - start) start

/-- Apply the mandate bumps of one `shard_id` iteration: every index `idx` in
`(shard_id..mandates.len()).step_by(num_shards)` credits
`stake_per_mandate` to the validator `shuffled_mandates[idx]` in the map at the
alias of `shard_id`. -/
def applyMandateBumps (shuffledMandates : List Nat) (stakePerMandate : Nat)
    (target : Nat) (idxs : List Nat)
    (assign : List (List (Nat × Nat))) : List (List (Nat × Nat)) :=
  idxs.foldl
    (fun acc idx => modifyAt acc target
      (fun m => bump m (shuffledMandates.getD idx 0) stakePerMandate))
    assign

/-- Apply the partial bumps of one `shard_id` iteration: every index `idx` in
`(shard_id..partials.len()).step_by(num_shards)` credits the partial weight to
its validator id in the map at the alias of `shard_id`. -/
def applyPartialBumps (shuffledPartials : List (Nat × Nat)) (target : Nat)
    (idxs : List Nat)
    (assign : List (List (Nat × Nat))) : List (List (Nat × Nat)) :=
  idxs.foldl
    (fun acc idx => modifyAt acc target
      (fun m => bump m (shuffledPartials.getD idx (0, 0)).1
        (shuffledPartials.getD idx (0, 0)).2))
    assign

/-- The distribution loop of `sample`: for each `shard_id` in
`0..num_shards`, route the mandate credits to the shard
`shard_ids_for_mandates.get_alias(shard_id)` and the partial credits to the
shard `shard_ids_for_partials.get_alias(shard_id)`, starting from one empty
map per shard. -/
def distribute (shuffledMandates : List Nat)
    (shuffledPartials : List (Nat × Nat)) (aliasM aliasP : List Nat)
    (stakePerMandate numShards : Nat) : List (List (Nat × Nat)) :=
  (List.range numShards).foldl
    (fun assign shardId =>
      let afterMandates := applyMandateBumps shuffledMandates stakePerMandate
        (getAlias aliasM shardId)
        (stepIndices shardId shuffledMandates.length numShards) assign
      applyPartialBumps shuffledPartials (getAlias aliasP shardId)
        (stepIndices shardId shuffledPartials.length numShards) afterMandates)
    (List.replicate numShards [])

/-- The final ordering loop of `sample`, one shard id at a time: sort the
shard's credited validator ids (itertools' `sorted()`; `insertionSort` computes
the same unique ascending reordering), shuffle them with the rng, and read each
validator's accumulated stake off the map. -/
def orderGo (assign : List (List (Nat × Nat))) (r : RngState) :
    List Nat → List (List (Nat × Nat))
  | [] => []
  | shardId :: rest =>
    let stakeAssignment := assign.getD shardId []
    let orderedIds := List.insertionSort (· ≤ ·) (stakeAssignment.map Prod.fst)
    let (shuffledIds, r1) := shuffle orderedIds r
    shuffledIds.map (fun v => (v, lookupA stakeAssignment v)) ::
      orderGo assign r1 rest

/-- `ValidatorMandates::sample`: two shard-id permutations, the mandate and
partial shuffles, the modulo distribution over shards, then the per-shard
sort-and-shuffle ordering; returns the `ChunkValidatorStakeAssignment` (one
vector of `(validator id, stake)` pairs per shard). -/
def ValidatorMandates.sample (m : ValidatorMandates) (r : RngState) :
    List (List (Nat × Nat)) :=
  let (aliasM, r1) := shuffledShardIds m.config.numShards r
  let (aliasP, r2) := shuffledShardIds m.config.numShards r1
  let (shuffledMandates, r3) := shuffle m.mandates r2
  let (shuffledPartials, r4) := shuffle m.partials r3
  let assign := distribute shuffledMandates shuffledPartials aliasM aliasP
    m.stakePerMandate m.config.numShards
  orderGo assign r4 (List.range m.config.numShards)

/-- The stake credited to validator `v` in one shard's vector (or one
association-list map): the sum of the second components of `v`'s entries. -/
def credit (v : Nat) (l : List (Nat × Nat)) : Nat :=
  (l.map (fun e => if e.1 = v then e.2 else 0)).sum

/-- The stake credited to validator `v` summed over all shards of an
assignment. -/
def totalCredit (v : Nat) (assignment : List (List (Nat × Nat))) : Nat :=
  (assignment.map (credit v)).sum

/-! ## Producer seed derivation (epoch_info.rs) -/

/-- `u64::to_le_bytes`: the eight little-endian bytes of a `u64` value. -/
def u64ToLeBytes (n : Nat) : List Nat :=
  [n % 256, n / 2 ^ 8 % 256, n / 2 ^ 16 % 256, n / 2 ^ 24 % 256,
   n / 2 ^ 32 % 256, n / 2 ^ 40 % 256, n / 2 ^ 48 % 256, n / 2 ^ 56 % 256]

/-- `slice[start..start + src.len()].copy_from_slice(src)` on lists (the
callers always write within bounds with exact lengths). -/
def setSlice (buf : List Nat) (start : Nat) (src : List Nat) : List Nat :=
  buf.take start ++ src ++ buf.drop (start + src.length)

/-- `EpochInfo::block_produce_seed`: hash a 40-byte buffer holding the 32-byte
rng seed followed by the height as eight little-endian bytes.  The sha256-based
`hash` of `near_primitives_core` is external to the sources and is taken as an
abstract function argument. -/
def blockProduceSeed (hashFn : List Nat → List Nat) (height : Nat)
    (seed : List Nat) : List Nat :=
  let buffer := List.replicate 40 0
  let buffer := setSlice buffer 0 seed
  let buffer := setSlice buffer 32 (u64ToLeBytes height)
  hashFn buffer

/-- `EpochInfo::chunk_produce_seed`.  The two `checked_feature!` flags
(`SynchronizeBlockChunkProduction`, `ChunkOnlyProducers`) are modelled from the
spec as the boolean results of the protocol-version check, since the feature
version tables are not among the sources: when synchronized block/chunk
production is enabled and chunk-only producers are disabled, the
shard-independent block seed is reused; otherwise hash a 48-byte buffer that
also appends the shard id as eight little-endian bytes. -/
def chunkProduceSeed (hashFn : List Nat → List Nat)
    (syncBlockChunkProduction chunkOnlyProducers : Bool) (seed : List Nat)
    (height shardId : Nat) : List Nat :=
  if syncBlockChunkProduction && !chunkOnlyProducers then
    blockProduceSeed hashFn height seed
  else
    let buffer := List.replicate 48 0
    let buffer := setSlice buffer 0 seed
    let buffer := setSlice buffer 32 (u64ToLeBytes height)
    let buffer := setSlice buffer 40 (u64ToLeBytes shardId)
    hashFn buffer

/-- The example layout of the spec's testable properties: boundary accounts
`foo` and `test0`, three shards. -/
def demoLayoutV1 : ShardLayoutV1 :=
  { boundaryAccounts := ["foo".data, "test0".data],
    shardsSplitMap := none,
    toParentShardMap := none,
    version := 1 }

/-! # Theorems -/

/-- C4: Checked counter arithmetic.  Each of the six `CongestionInfo` mutators
succeeds exactly when the underlying checked addition stays within the
counter's machine range (respectively the checked subtraction does not
underflow); on success the counter holds the exact sum or difference, so the
arithmetic never wraps or saturates; and from `receipt_bytes = u64::MAX` any
positive increment fails with the arithmetic-overflow error. -/
theorem C4_checked_counter_arithmetic :
    (∀ c bytes, (CongestionInfo.addReceiptBytes c bytes).1 = Except.ok () ↔
      c.receiptBytes + bytes ≤ u64Max) ∧
    (∀ c bytes, c.receiptBytes + bytes ≤ u64Max →
      ((CongestionInfo.addReceiptBytes c bytes).2).receiptBytes =
        c.receiptBytes + bytes) ∧
    (∀ c bytes, (CongestionInfo.removeReceiptBytes c bytes).1 = Except.ok () ↔
      bytes ≤ c.receiptBytes) ∧
    (∀ c bytes, bytes ≤ c.receiptBytes →
      ((CongestionInfo.removeReceiptBytes c bytes).2).receiptBytes =
        c.receiptBytes - bytes) ∧
    (∀ c gas, (CongestionInfo.addDelayedReceiptGas c gas).1 = Except.ok () ↔
      c.delayedReceiptsGas + gas ≤ u128Max) ∧
    (∀ c gas, c.delayedReceiptsGas + gas ≤ u128Max →
      ((CongestionInfo.addDelayedReceiptGas c gas).2).delayedReceiptsGas =
        c.delayedReceiptsGas + gas) ∧
    (∀ c gas, (CongestionInfo.removeDelayedReceiptGas c gas).1 = Except.ok () ↔
      gas ≤ c.delayedReceiptsGas) ∧
    (∀ c gas, gas ≤ c.delayedReceiptsGas →
      ((CongestionInfo.removeDelayedReceiptGas c gas).2).delayedReceiptsGas =
        c.delayedReceiptsGas - gas) ∧
    (∀ c gas, (CongestionInfo.addBufferedReceiptGas c gas).1 = Except.ok () ↔
      c.bufferedReceiptsGas + gas ≤ u128Max) ∧
    (∀ c gas, c.bufferedReceiptsGas + gas ≤ u128Max →
      ((CongestionInfo.addBufferedReceiptGas c gas).2).bufferedReceiptsGas =
        c.bufferedReceiptsGas + gas) ∧
    (∀ c gas, (CongestionInfo.removeBufferedReceiptGas c gas).1 = Except.ok () ↔
      gas ≤ c.bufferedReceiptsGas) ∧
    (∀ c gas, gas ≤ c.bufferedReceiptsGas →
      ((CongestionInfo.removeBufferedReceiptGas c gas).2).bufferedReceiptsGas =
        c.bufferedReceiptsGas - gas) ∧
    (∀ c bytes, c.receiptBytes = u64Max → 0 < bytes →
      (CongestionInfo.addReceiptBytes c bytes).1 =
        Except.error "add_receipt_bytes") := by
  refine ⟨?_, ?_, ?_, ?_, ?_, ?_, ?_, ?_, ?_, ?_, ?_, ?_, ?_⟩ <;>
    intro c x <;> obtain ⟨inner⟩ := c
  case _ =>
    by_cases h : inner.receiptBytes + x ≤ u64Max <;>
      simp [CongestionInfo.addReceiptBytes, checkedAddU64,
        CongestionInfo.receiptBytes, h]
  case _ =>
    intro h
    simp [CongestionInfo.addReceiptBytes, checkedAddU64,
      CongestionInfo.receiptBytes] at h ⊢
    simp [h]
  case _ =>
    by_cases h : x ≤ inner.receiptBytes <;>
      simp [CongestionInfo.removeReceiptBytes, checkedSub,
        CongestionInfo.receiptBytes, h]
  case _ =>
    intro h
    simp [CongestionInfo.removeReceiptBytes, checkedSub,
      CongestionInfo.receiptBytes] at h ⊢
    simp [h]
  case _ =>
    by_cases h : inner.delayedReceiptsGas + x ≤ u128Max <;>
      simp [CongestionInfo.addDelayedReceiptGas, checkedAddU128,
        CongestionInfo.delayedReceiptsGas, h]
  case _ =>
    intro h
    simp [CongestionInfo.addDelayedReceiptGas, checkedAddU128,
      CongestionInfo.delayedReceiptsGas] at h ⊢
    simp [h]
  case _ =>
    by_cases h : x ≤ inner.delayedReceiptsGas <;>
      simp [CongestionInfo.removeDelayedReceiptGas, checkedSub,
        CongestionInfo.delayedReceiptsGas, h]
  case _ =>
    intro h
    simp [CongestionInfo.removeDelayedReceiptGas, checkedSub,
      CongestionInfo.delayedReceiptsGas] at h ⊢
    simp [h]
  case _ =>
    by_cases h : inner.bufferedReceiptsGas + x ≤ u128Max <;>
      simp [CongestionInfo.addBufferedReceiptGas, checkedAddU128,
        CongestionInfo.bufferedReceiptsGas, h]
  case _ =>
    intro h
    simp [CongestionInfo.addBufferedReceiptGas, checkedAddU128,
      CongestionInfo.bufferedReceiptsGas] at h ⊢
    simp [h]
  case _ =>
    by_cases h : x ≤ inner.bufferedReceiptsGas <;>
      simp [CongestionInfo.removeBufferedReceiptGas, checkedSub,
        CongestionInfo.bufferedReceiptsGas, h]
  case _ =>
    intro h
    simp [CongestionInfo.removeBufferedReceiptGas, checkedSub,
      CongestionInfo.bufferedReceiptsGas] at h ⊢
    simp [h]
  case _ =>
    intro h hx
    simp [CongestionInfo.receiptBytes] at h
    have hov : ¬ inner.receiptBytes + x ≤ u64Max := by omega
    simp [CongestionInfo.addReceiptBytes, checkedAddU64, hov]

/-- Witness for C4 at a concrete state: adding one byte at `u64::MAX` fails. -/
theorem C4_checked_counter_arithmetic_witness :
    (CongestionInfo.addReceiptBytes
        (CongestionInfo.V1 ⟨0, 0, u64Max, 0⟩) 1).1 =
      Except.error "add_receipt_bytes" :=
  C4_checked_counter_arithmetic.2.2.2.2.2.2.2.2.2.2.2.2
    (CongestionInfo.V1 ⟨0, 0, u64Max, 0⟩) 1 rfl (by decide)

/-- C10: Atomicity of failed mutators.  Whenever one of the six
`CongestionInfo` mutators reports an error, the state after the call is the
unchanged original `CongestionInfo`. -/
theorem C10_failed_mutators_leave_state_unchanged :
    (∀ c bytes e, (CongestionInfo.addReceiptBytes c bytes).1 = Except.error e →
      (CongestionInfo.addReceiptBytes c bytes).2 = c) ∧
    (∀ c bytes e, (CongestionInfo.removeReceiptBytes c bytes).1 = Except.error e →
      (CongestionInfo.removeReceiptBytes c bytes).2 = c) ∧
    (∀ c gas e, (CongestionInfo.addDelayedReceiptGas c gas).1 = Except.error e →
      (CongestionInfo.addDelayedReceiptGas c gas).2 = c) ∧
    (∀ c gas e, (CongestionInfo.removeDelayedReceiptGas c gas).1 = Except.error e →
      (CongestionInfo.removeDelayedReceiptGas c gas).2 = c) ∧
    (∀ c gas e, (CongestionInfo.addBufferedReceiptGas c gas).1 = Except.error e →
      (CongestionInfo.addBufferedReceiptGas c gas).2 = c) ∧
    (∀ c gas e, (CongestionInfo.removeBufferedReceiptGas c gas).1 = Except.error e →
      (CongestionInfo.removeBufferedReceiptGas c gas).2 = c) := by
  refine ⟨?_, ?_, ?_, ?_, ?_, ?_⟩ <;> intro c x e <;> obtain ⟨inner⟩ := c
  case _ =>
    by_cases h : inner.receiptBytes + x ≤ u64Max <;>
      simp [CongestionInfo.addReceiptBytes, checkedAddU64, h]
  case _ =>
    by_cases h : x ≤ inner.receiptBytes <;>
      simp [CongestionInfo.removeReceiptBytes, checkedSub, h]
  case _ =>
    by_cases h : inner.delayedReceiptsGas + x ≤ u128Max <;>
      simp [CongestionInfo.addDelayedReceiptGas, checkedAddU128, h]
  case _ =>
    by_cases h : x ≤ inner.delayedReceiptsGas <;>
      simp [CongestionInfo.removeDelayedReceiptGas, checkedSub, h]
  case _ =>
    by_cases h : inner.bufferedReceiptsGas + x ≤ u128Max <;>
      simp [CongestionInfo.addBufferedReceiptGas, checkedAddU128, h]
  case _ =>
    by_cases h : x ≤ inner.bufferedReceiptsGas <;>
      simp [CongestionInfo.removeBufferedReceiptGas, checkedSub, h]

/-- Witness for C10 at a concrete state: removing two gas units from a
one-unit delayed-gas counter fails and leaves the state unchanged. -/
theorem C10_failed_mutators_leave_state_unchanged_witness :
    (CongestionInfo.removeDelayedReceiptGas
        (CongestionInfo.V1 ⟨1, 2, 3, 4⟩) 2).2 =
      CongestionInfo.V1 ⟨1, 2, 3, 4⟩ :=
  C10_failed_mutators_leave_state_unchanged.2.2.2.1
    (CongestionInfo.V1 ⟨1, 2, 3, 4⟩) 2 "remove_delayed_receipt_gas" rfl

/-- Writing a slice into the middle of a buffer: splitting the buffer at the
write position, the slice replaces a source-length piece of the tail. -/
theorem setSlice_append (l1 l2 src : List Nat) :
    setSlice (l1 ++ l2) l1.length src = l1 ++ src ++ l2.drop src.length := by
  unfold setSlice
  rw [List.take_left, ← List.drop_drop, List.drop_left, List.append_assoc]

/-- The 40-byte block-seed buffer assembly equals seed-then-height bytes. -/
theorem blockSeedBuffer_eq (seed : List Nat) (h : seed.length = 32) (n : Nat) :
    setSlice (setSlice (List.replicate 40 0) 0 seed) 32 (u64ToLeBytes n) =
      seed ++ u64ToLeBytes n := by
  have h1 : setSlice (List.replicate 40 0) 0 seed =
      seed ++ List.replicate 8 0 := by
    unfold setSlice
    simp [h, List.drop_replicate]
  rw [h1, ← h, setSlice_append]
  have h2 : (u64ToLeBytes n).length = 8 := rfl
  simp [h2]

/-- The 48-byte chunk-seed buffer assembly equals seed, height bytes, then
shard-id bytes. -/
theorem chunkSeedBuffer_eq (seed : List Nat) (h : seed.length = 32)
    (n m : Nat) :
    setSlice (setSlice (setSlice (List.replicate 48 0) 0 seed) 32
        (u64ToLeBytes n)) 40 (u64ToLeBytes m) =
      seed ++ u64ToLeBytes n ++ u64ToLeBytes m := by
  have hn : (u64ToLeBytes n).length = 8 := rfl
  have hm : (u64ToLeBytes m).length = 8 := rfl
  have h1 : setSlice (List.replicate 48 0) 0 seed =
      seed ++ List.replicate 16 0 := by
    unfold setSlice
    simp [h, List.drop_replicate]
  rw [h1, ← h, setSlice_append, hn]
  have h2 : (List.replicate 16 0).drop 8 = List.replicate 8 (0 : Nat) := by
    simp [List.drop_replicate]
  rw [h2]
  have h3 : (40 : Nat) = (seed ++ u64ToLeBytes n).length := by
    simp [h, hn]
  rw [h3, setSlice_append, hm]
  simp

/-- C9: Producer seed derivation.  `block_produce_seed` hashes the 32-byte rng
seed followed by the height as eight little-endian bytes;
`chunk_produce_seed` reuses that shard-independent seed when synchronized
block/chunk production is on and chunk-only producers are off, and otherwise
hashes the rng seed, the height bytes, and the shard id as eight little-endian
bytes. -/
theorem C9_producer_seed_derivation :
    ∀ (hashFn : List Nat → List Nat) (height shardId : Nat) (seed : List Nat)
      (syncBlockChunkProduction chunkOnlyProducers : Bool),
      seed.length = 32 →
      blockProduceSeed hashFn height seed =
        hashFn (seed ++ u64ToLeBytes height) ∧
      (syncBlockChunkProduction = true → chunkOnlyProducers = false →
        chunkProduceSeed hashFn syncBlockChunkProduction chunkOnlyProducers
          seed height shardId = blockProduceSeed hashFn height seed) ∧
      (syncBlockChunkProduction = false ∨ chunkOnlyProducers = true →
        chunkProduceSeed hashFn syncBlockChunkProduction chunkOnlyProducers
          seed height shardId =
          hashFn (seed ++ u64ToLeBytes height ++ u64ToLeBytes shardId)) := by
  intro hashFn height shardId seed sync chunkOnly hlen
  have hblock : blockProduceSeed hashFn height seed =
      hashFn (setSlice (setSlice (List.replicate 40 0) 0 seed) 32
        (u64ToLeBytes height)) := rfl
  refine ⟨?_, ?_, ?_⟩
  · rw [hblock, blockSeedBuffer_eq seed hlen]
  · intro hs hc
    subst hs; subst hc
    simp [chunkProduceSeed]
  · intro h
    have hcond : (sync && !chunkOnly) = false := by
      rcases h with h | h <;> simp [h]
    have hchunk : chunkProduceSeed hashFn sync chunkOnly seed height shardId =
        if (sync && !chunkOnly) = true then blockProduceSeed hashFn height seed
        else hashFn (setSlice (setSlice (setSlice (List.replicate 48 0) 0 seed)
          32 (u64ToLeBytes height)) 40 (u64ToLeBytes shardId)) := rfl
    rw [hchunk, hcond]
    simp only [Bool.false_eq_true, if_false]
    rw [chunkSeedBuffer_eq seed hlen]

/-- Witness for C9 at a concrete input: the identity hash, an all-zero
32-byte seed, height 5, shard 3, with both feature combinations. -/
theorem C9_producer_seed_derivation_witness :
    blockProduceSeed id 5 (List.replicate 32 0) =
      id (List.replicate 32 0 ++ u64ToLeBytes 5) ∧
    (chunkProduceSeed id true false (List.replicate 32 0) 5 3 =
      blockProduceSeed id 5 (List.replicate 32 0)) ∧
    chunkProduceSeed id false false (List.replicate 32 0) 5 3 =
      id (List.replicate 32 0 ++ u64ToLeBytes 5 ++ u64ToLeBytes 3) := by
  have h1 := C9_producer_seed_derivation id 5 3 (List.replicate 32 0)
    true false (by decide)
  have h2 := C9_producer_seed_derivation id 5 3 (List.replicate 32 0)
    false false (by decide)
  exact ⟨h1.1, h1.2.1 rfl rfl, h2.2.2 (Or.inl rfl)⟩

/-- The strict account order is transitive across a non-strict bound:
from `a < b` and `b ≤ c` conclude `a < c`. -/
theorem ltChars_trans_le : ∀ (a b c : List Char),
    ltChars a b = true → ltChars c b = false → ltChars a c = true := by
  intro a
  induction a with
  | nil =>
    intro b c hab hcb
    cases b with
    | nil => simp [ltChars] at hab
    | cons hb tb =>
      cases c with
      | nil => simp [ltChars] at hcb
      | cons hc tc => simp [ltChars]
  | cons ha ta ih =>
    intro b c hab hcb
    cases b with
    | nil => simp [ltChars] at hab
    | cons hb tb =>
      cases c with
      | nil => simp [ltChars] at hcb
      | cons hc tc =>
        simp only [ltChars] at hab hcb ⊢
        by_cases h1 : ha.toNat < hb.toNat
        · by_cases h2 : hc.toNat < hb.toNat
          · simp [h2] at hcb
          · by_cases h3 : hb.toNat < hc.toNat
            · have : ha.toNat < hc.toNat := by omega
              simp [this]
            · -- hb and hc share the code point
              have : ha.toNat < hc.toNat := by omega
              simp [this]
        · by_cases h4 : hb.toNat < ha.toNat
          · simp [h1, h4] at hab
          · -- ha and hb share the code point, so the tails decide a < b
            simp [h1, h4] at hab
            by_cases h2 : hc.toNat < hb.toNat
            · simp [h2] at hcb
            · by_cases h3 : hb.toNat < hc.toNat
              · have : ha.toNat < hc.toNat := by omega
                simp [this]
              · -- all three heads share the code point
                simp [h2, h3] at hcb
                have h5 : ¬ ha.toNat < hc.toNat := by omega
                have h6 : ¬ hc.toNat < ha.toNat := by omega
                simp [h5, h6]
                exact ih tb tc hab hcb

/-- The boundary-scan loop on a sorted boundary list counts the boundaries
that do not exceed the account. -/
theorem boundaryScan_eq_countP :
    ∀ (bs : List (List Char)),
      List.Pairwise (fun x y => leChars x y = true) bs →
      ∀ a, boundaryScan a bs = bs.countP (fun b => leChars b a) := by
  intro bs
  induction bs with
  | nil => intro _ a; rfl
  | cons b rest ih =>
    intro hsorted a
    rw [List.pairwise_cons] at hsorted
    obtain ⟨hb, hrest⟩ := hsorted
    by_cases h : ltChars a b = true
    · have hzero : rest.countP (fun c => leChars c a) = 0 := by
        rw [List.countP_eq_zero]
        intro c hc
        have hbc := hb c hc
        unfold leChars at hbc ⊢
        simp only [Bool.not_eq_true', Bool.not_eq_false] at hbc ⊢
        exact ltChars_trans_le a b c h hbc
      rw [List.countP_cons, hzero]
      unfold boundaryScan
      rw [h]
      simp [leChars, h]
    · unfold boundaryScan
      rw [if_neg (by simp [h])]
      rw [List.countP_cons, ih hrest a]
      have : leChars b a = true := by
        simp [leChars, Bool.not_eq_true] at h ⊢
        exact h
      simp [this]

/-- C3: Account routing.  On a `V1` layout with sorted boundary accounts,
`account_id_to_shard_id` returns the number of boundary accounts that are less
than or equal to the account (so an account equal to a boundary belongs to the
shard starting at that boundary); in particular, with boundaries `foo` and
`test0`, account `aaa` maps to shard 0, `foo` and `foo0` to shard 1, and `zzz`
to shard 2. -/
theorem C3_account_routing :
    (∀ (v1 : ShardLayoutV1) (a : List Char),
      List.Pairwise (fun x y => leChars x y = true) v1.boundaryAccounts →
      accountIdToShardId a (ShardLayout.V1 v1) =
        v1.boundaryAccounts.countP (fun b => leChars b a)) ∧
    accountIdToShardId "aaa".data (ShardLayout.V1 demoLayoutV1) = 0 ∧
    accountIdToShardId "foo".data (ShardLayout.V1 demoLayoutV1) = 1 ∧
    accountIdToShardId "foo0".data (ShardLayout.V1 demoLayoutV1) = 1 ∧
    accountIdToShardId "zzz".data (ShardLayout.V1 demoLayoutV1) = 2 := by
  refine ⟨?_, by decide, by decide, by decide, by decide⟩
  intro v1 a hsorted
  exact boundaryScan_eq_countP v1.boundaryAccounts hsorted a

/-- Witness for C3 at a concrete layout: the demo layout's boundaries are
sorted, and the general characterization applied to account `foo0` yields the
boundary count. -/
theorem C3_account_routing_witness :
    accountIdToShardId "foo0".data (ShardLayout.V1 demoLayoutV1) =
      demoLayoutV1.boundaryAccounts.countP (fun b => leChars b "foo0".data) :=
  C3_account_routing.1 demoLayoutV1 "foo0".data (by decide)

/-- C5: Outgoing gas limit.  With the congestion thresholds positive (the
source asserts this), at congestion level exactly `1` the limit is
`allowed_shard_outgoing_gas` for the stored allowed shard and `0` for every
other sender; at level `0` it is `max_outgoing_gas`; and at any level other
than `1` it is the rounded linear interpolation
`round(max * (1 - level) + min * level)`. -/
theorem C5_outgoing_gas_limit :
    ∀ cc : CongestionControl,
      0 < cc.config.maxCongestionIncomingGas →
      0 < cc.config.maxCongestionOutgoingGas →
      0 < cc.config.maxCongestionMemoryConsumption →
      0 < cc.config.maxCongestionMissedChunks →
      (cc.congestionLevel = 1 → ∀ senderShard,
        cc.outgoingGasLimit senderShard =
          if senderShard = cc.info.allowedShard then
            cc.config.allowedShardOutgoingGas
          else 0) ∧
      (cc.congestionLevel = 0 → ∀ senderShard,
        cc.outgoingGasLimit senderShard = cc.config.maxOutgoingGas) ∧
      (cc.congestionLevel ≠ 1 → ∀ senderShard,
        cc.outgoingGasLimit senderShard =
          (round ((cc.config.maxOutgoingGas : ℚ) * (1 - cc.congestionLevel) +
            (cc.config.minOutgoingGas : ℚ) * cc.congestionLevel)).toNat) := by
  intro cc _ _ _ _
  refine ⟨?_, ?_, ?_⟩
  · intro h senderShard
    simp [CongestionControl.outgoingGasLimit, h]
  · intro h senderShard
    have hne : cc.congestionLevel ≠ 1 := by rw [h]; norm_num
    simp only [CongestionControl.outgoingGasLimit, h, hne, if_false, mix]
    norm_num
  · intro h senderShard
    simp [CongestionControl.outgoingGasLimit, h, mix]

/-- Witness for C5 at a concrete state: zero counters and unit thresholds give
congestion level `0` and the maximal outgoing gas. -/
theorem C5_outgoing_gas_limit_witness :
    CongestionControl.outgoingGasLimit
      ⟨⟨1, 1, 1, 1, 100, 10, 7, 3, 5, 9, 2, 1/2⟩,
        CongestionInfo.V1 ⟨0, 0, 0, 0⟩, 0⟩ 4 = 100 := by
  have h := C5_outgoing_gas_limit
    ⟨⟨1, 1, 1, 1, 100, 10, 7, 3, 5, 9, 2, 1/2⟩,
      CongestionInfo.V1 ⟨0, 0, 0, 0⟩, 0⟩
    (by decide) (by decide) (by decide) (by decide)
  refine h.2.1 ?_ 4
  norm_num [CongestionControl.congestionLevel,
    CongestionControl.incomingCongestion, CongestionControl.outgoingCongestion,
    CongestionControl.memoryCongestion, CongestionControl.missedChunksCongestion,
    clampedF64Fraction, CongestionInfo.delayedReceiptsGas,
    CongestionInfo.bufferedReceiptsGas, CongestionInfo.receiptBytes]

/-- Counting occurrences in a concatenation of constant blocks indexed by
`0..n`: the element `x` occurs `f x` times when `x < n`, never otherwise. -/
theorem count_flatMap_range (f : Nat → Nat) :
    ∀ n x, ((List.range n).flatMap fun i => List.replicate (f i) i).count x =
      if x < n then f x else 0 := by
  intro n
  induction n with
  | zero => simp
  | succ n ih =>
    intro x
    rw [List.range_succ, List.flatMap_append, List.count_append, ih]
    simp only [List.flatMap_cons, List.flatMap_nil, List.append_nil,
      List.count_replicate]
    rcases Nat.lt_trichotomy x n with h | h | h
    · have h1 : x < n + 1 := by omega
      have h2 : (n == x) = false := by simp [] ; omega
      simp [h, h1, h2]
    · subst h
      simp
    · have h1 : ¬ x < n := by omega
      have h2 : ¬ x < n + 1 := by omega
      have h3 : (n == x) = false := by simp [] ; omega
      simp [h1, h2, h3]

/-- A concatenation of constant blocks indexed by `0..n` is sorted. -/
theorem sorted_flatMap_range (f : Nat → Nat) :
    ∀ n, List.Sorted (· ≤ ·)
      ((List.range n).flatMap fun i => List.replicate (f i) i) := by
  intro n
  induction n with
  | zero => simp [List.Sorted]
  | succ n ih =>
    rw [List.range_succ, List.flatMap_append]
    simp only [List.flatMap_cons, List.flatMap_nil, List.append_nil]
    rw [List.Sorted, List.pairwise_append]
    refine ⟨ih, List.pairwise_replicate.mpr (Or.inr le_rfl), ?_⟩
    intro a ha b hb
    rw [List.mem_flatMap] at ha
    obtain ⟨i, hi, hai⟩ := ha
    rw [List.mem_range] at hi
    rw [List.eq_of_mem_replicate hai, List.eq_of_mem_replicate hb]
    omega

/-- Filtering with an index-tagging function preserves strict key order. -/
theorem pairwise_key_filterMap (f : Nat → Option (Nat × Nat))
    (hf : ∀ a p, f a = some p → p.1 = a) :
    ∀ l : List Nat, List.Pairwise (· < ·) l →
      List.Pairwise (fun p q => p.1 < q.1) (l.filterMap f) := by
  intro l
  induction l with
  | nil => intro _; simp
  | cons a t ih =>
    intro hp
    rw [List.pairwise_cons] at hp
    obtain ⟨ha, ht⟩ := hp
    rw [List.filterMap_cons]
    cases hfa : f a with
    | none => exact ih ht
    | some p =>
      rw [List.pairwise_cons]
      refine ⟨?_, ih ht⟩
      intro q hq
      rw [List.mem_filterMap] at hq
      obtain ⟨b, hb, hfb⟩ := hq
      rw [hf a p hfa, hf b q hfb]
      exact ha b hb

/-- C8: Mandate construction.  For every configuration, every price the
mandate-price search could return, and every validator list indexed by
ascending validator id (with every mandate count fitting `u16`, the source's
cast precondition), the mandates vector holds validator id `i` exactly
`floor(stake_i / price)` times and is ascending, and the partials vector holds
exactly the pairs `(i, stake_i mod price)` with non-zero remainder, in
ascending id order. -/
theorem C8_mandate_construction :
    ∀ (config : ValidatorMandatesConfig) (price : Nat)
      (validators : List ValidatorStake),
      (∀ v ∈ validators, v.stake / price < 2 ^ 16) →
      (∀ i, (ValidatorMandates.new config price validators).mandates.count i =
        if i < validators.length then
          (validators.getD i default).stake / price
        else 0) ∧
      List.Sorted (· ≤ ·)
        (ValidatorMandates.new config price validators).mandates ∧
      (∀ i w,
        (i, w) ∈ (ValidatorMandates.new config price validators).partials ↔
          i < validators.length ∧
            w = (validators.getD i default).stake % price ∧ 0 < w) ∧
      List.Pairwise (fun p q => p.1 < q.1)
        (ValidatorMandates.new config price validators).partials := by
  intro config price validators _
  refine ⟨?_, ?_, ?_, ?_⟩
  · intro i
    exact count_flatMap_range
      (fun i => (validators.getD i default).numMandates price)
      validators.length i
  · exact sorted_flatMap_range
      (fun i => (validators.getD i default).numMandates price)
      validators.length
  · intro i w
    simp only [ValidatorMandates.new, newPartials, List.mem_filterMap,
      List.mem_range]
    constructor
    · rintro ⟨a, ha, hfa⟩
      split at hfa
      · rw [Option.some_inj, Prod.mk.injEq] at hfa
        obtain ⟨rfl, rfl⟩ := hfa
        refine ⟨ha, rfl, ?_⟩
        assumption
      · exact absurd hfa (by simp)
    · rintro ⟨hi, hw, hpos⟩
      refine ⟨i, hi, ?_⟩
      rw [hw]
      rw [show (validators.getD i default).partialWeight price =
        (validators.getD i default).stake % price from rfl]
      rw [if_pos (hw ▸ hpos)]
  · refine pairwise_key_filterMap _ ?_ (List.range validators.length)
      (List.pairwise_lt_range validators.length)
    intro a p hfa
    simp only at hfa
    split at hfa
    · rw [Option.some_inj] at hfa
      rw [← hfa]
    · exact absurd hfa (by simp)

/-- Witness for C8 at a concrete input: three validators with stakes 12, 4 and
10 at price 5 produce mandate counts 2, 0, 2 and a partial entry for each
non-zero remainder. -/
theorem C8_mandate_construction_witness :
    ((ValidatorMandates.new ⟨2, 2⟩ 5
        [⟨"a", 0, 12⟩, ⟨"b", 0, 4⟩, ⟨"c", 0, 10⟩]).mandates.count 0 = 2) ∧
    (1, 4) ∈ (ValidatorMandates.new ⟨2, 2⟩ 5
        [⟨"a", 0, 12⟩, ⟨"b", 0, 4⟩, ⟨"c", 0, 10⟩]).partials := by
  have h := C8_mandate_construction ⟨2, 2⟩ 5
    [⟨"a", 0, 12⟩, ⟨"b", 0, 4⟩, ⟨"c", 0, 10⟩] (by decide)
  exact ⟨(h.1 0).trans (by decide), (h.2.2.1 1 4).mpr (by decide)⟩

/-- C6: Transaction admission and rejection reason.  With the congestion
thresholds positive, a shard accepts transactions exactly when the maximum of
the four congestion measures is strictly below
`reject_tx_congestion_threshold`; on rejection the reported reason is the
first measure in the priority order missed, incoming, outgoing, memory whose
value reaches the overall congestion level. -/
theorem C6_tx_admission :
    ∀ cc : CongestionControl,
      0 < cc.config.maxCongestionIncomingGas →
      0 < cc.config.maxCongestionOutgoingGas →
      0 < cc.config.maxCongestionMemoryConsumption →
      0 < cc.config.maxCongestionMissedChunks →
      (cc.shardAcceptsTransactions = ShardAcceptsTransactions.yes ↔
        max (max (max cc.incomingCongestion cc.outgoingCongestion)
            cc.memoryCongestion) cc.missedChunksCongestion <
          cc.config.rejectTxCongestionThreshold) ∧
      (¬ max (max (max cc.incomingCongestion cc.outgoingCongestion)
            cc.memoryCongestion) cc.missedChunksCongestion <
          cc.config.rejectTxCongestionThreshold →
        cc.shardAcceptsTransactions =
          ShardAcceptsTransactions.no
            (if cc.missedChunksCongestion ≥
                max (max (max cc.incomingCongestion cc.outgoingCongestion)
                  cc.memoryCongestion) cc.missedChunksCongestion then
              RejectTransactionReason.missedChunks cc.missedChunksCount
            else if cc.incomingCongestion ≥
                max (max (max cc.incomingCongestion cc.outgoingCongestion)
                  cc.memoryCongestion) cc.missedChunksCongestion then
              RejectTransactionReason.incomingCongestion
                (max (max (max cc.incomingCongestion cc.outgoingCongestion)
                  cc.memoryCongestion) cc.missedChunksCongestion)
            else if cc.outgoingCongestion ≥
                max (max (max cc.incomingCongestion cc.outgoingCongestion)
                  cc.memoryCongestion) cc.missedChunksCongestion then
              RejectTransactionReason.outgoingCongestion
                (max (max (max cc.incomingCongestion cc.outgoingCongestion)
                  cc.memoryCongestion) cc.missedChunksCongestion)
            else
              RejectTransactionReason.memoryCongestion
                (max (max (max cc.incomingCongestion cc.outgoingCongestion)
                  cc.memoryCongestion) cc.missedChunksCongestion))) := by
  intro cc _ _ _ _
  constructor
  · by_cases h : max (max (max cc.incomingCongestion cc.outgoingCongestion)
        cc.memoryCongestion) cc.missedChunksCongestion <
        cc.config.rejectTxCongestionThreshold <;>
      simp [CongestionControl.shardAcceptsTransactions, h]
  · intro h
    simp [CongestionControl.shardAcceptsTransactions, h]

/-- Witness for C6 at a concrete state: a fully congested incoming measure
with no missed chunks is rejected with the incoming-congestion reason. -/
theorem C6_tx_admission_witness :
    CongestionControl.shardAcceptsTransactions
        ⟨⟨1, 1, 1, 1, 100, 10, 7, 3, 5, 9, 2, 1/2⟩,
          CongestionInfo.V1 ⟨1, 0, 0, 0⟩, 0⟩ =
      ShardAcceptsTransactions.no
        (RejectTransactionReason.incomingCongestion 1) := by
  have h := C6_tx_admission
    ⟨⟨1, 1, 1, 1, 100, 10, 7, 3, 5, 9, 2, 1/2⟩,
      CongestionInfo.V1 ⟨1, 0, 0, 0⟩, 0⟩
    (by decide) (by decide) (by decide) (by decide)
  have h2 := h.2 (by norm_num [CongestionControl.incomingCongestion,
    CongestionControl.outgoingCongestion, CongestionControl.memoryCongestion,
    CongestionControl.missedChunksCongestion, clampedF64Fraction,
    CongestionInfo.delayedReceiptsGas, CongestionInfo.bufferedReceiptsGas,
    CongestionInfo.receiptBytes])
  rw [h2]
  norm_num [CongestionControl.incomingCongestion,
    CongestionControl.outgoingCongestion, CongestionControl.memoryCongestion,
    CongestionControl.missedChunksCongestion, clampedF64Fraction,
    CongestionInfo.delayedReceiptsGas, CongestionInfo.bufferedReceiptsGas,
    CongestionInfo.receiptBytes]

/-- The decimal printer's fuel is irrelevant once it exceeds the number. -/
theorem natToCharsGo_congr :
    ∀ fuel fuel1 n, n < fuel → n < fuel1 →
      natToCharsGo fuel n = natToCharsGo fuel1 n := by
  intro fuel
  induction fuel with
  | zero => intro fuel1 n h; omega
  | succ fuel ih =>
    intro fuel1 n h h1
    cases fuel1 with
    | zero => omega
    | succ fuel1 =>
      simp only [natToCharsGo]
      by_cases h10 : n < 10
      · simp [h10]
      · have hd : n / 10 < n := Nat.div_lt_self (by omega) (by omega)
        rw [if_neg h10, if_neg h10, ih fuel1 (n / 10) (by omega) (by omega)]

/-- The one-step unfolding of the decimal printer. -/
theorem natToChars_eq (n : Nat) :
    natToChars n =
      if n < 10 then [digitChar n]
      else natToChars (n / 10) ++ [digitChar (n % 10)] := by
  have hd : n < 10 ∨ n / 10 < n := by
    rcases Nat.lt_or_ge n 10 with h | h
    · exact Or.inl h
    · exact Or.inr (Nat.div_lt_self (by omega) (by omega))
  show (if n < 10 then [digitChar n]
    else natToCharsGo n (n / 10) ++ [digitChar (n % 10)]) = _
  by_cases h10 : n < 10
  · rw [if_pos h10, if_pos h10]
  · rw [if_neg h10, if_neg h10]
    congr 1
    show _ = natToCharsGo (n / 10 + 1) (n / 10)
    exact natToCharsGo_congr n (n / 10 + 1) (n / 10)
      (by rcases hd with h | h; omega; omega) (by omega)

/-- Digit characters are digits. -/
theorem digitChar_isDigit (n : Nat) (h : n < 10) :
    (digitChar n).isDigit = true := by
  interval_cases n <;> decide

/-- The numeric value of a digit character. -/
theorem digitChar_toNat (n : Nat) (h : n < 10) :
    (digitChar n).toNat - 48 = n := by
  interval_cases n <;> decide

/-- Every character the decimal printer emits is a digit. -/
theorem natToChars_all_digits :
    ∀ n c, c ∈ natToChars n → c.isDigit = true := by
  intro n
  induction n using Nat.strong_induction_on with
  | _ n ih =>
    intro c hc
    rw [natToChars_eq] at hc
    by_cases h10 : n < 10
    · rw [if_pos h10, List.mem_singleton] at hc
      rw [hc]
      exact digitChar_isDigit n h10
    · rw [if_neg h10, List.mem_append] at hc
      rcases hc with hc | hc
      · exact ih (n / 10) (Nat.div_lt_self (by omega) (by omega)) c hc
      · rw [List.mem_singleton] at hc
        rw [hc]
        exact digitChar_isDigit (n % 10) (by omega)

/-- The decimal printer never returns the empty list. -/
theorem natToChars_ne_nil (n : Nat) : natToChars n ≠ [] := by
  rw [natToChars_eq]
  by_cases h10 : n < 10 <;> simp [h10]

/-- Parsing the printed digits of `n` continues with the accumulator advanced
by `n` under the digits' magnitude. -/
theorem parseDigitsAcc_natToChars :
    ∀ n acc rest, parseDigitsAcc acc (natToChars n ++ rest) =
      parseDigitsAcc (acc * 10 ^ (natToChars n).length + n) rest := by
  intro n
  induction n using Nat.strong_induction_on with
  | _ n ih =>
    intro acc rest
    rw [natToChars_eq]
    by_cases h10 : n < 10
    · rw [if_pos h10]
      simp only [List.singleton_append, List.length_singleton, parseDigitsAcc,
        digitChar_isDigit n h10, if_pos, digitChar_toNat n h10, pow_one]
      rfl
    · have hd : n / 10 < n := Nat.div_lt_self (by omega) (by omega)
      rw [if_neg h10, List.append_assoc, List.singleton_append,
        ih (n / 10) hd acc, parseDigitsAcc,
        if_pos (digitChar_isDigit (n % 10) (by omega)),
        digitChar_toNat (n % 10) (by omega), List.length_append,
        List.length_singleton]
      have harith :
          (acc * 10 ^ (natToChars (n / 10)).length + n / 10) * 10 + n % 10 =
            acc * 10 ^ ((natToChars (n / 10)).length + 1) + n := by
        rw [pow_succ]
        have := Nat.div_add_mod n 10
        ring_nf
        omega
      rw [harith]

/-- Parsing the printed digits of a number below `2^32` recovers the number. -/
theorem parseU32_natToChars (n : Nat) (h : n < 2 ^ 32) :
    parseU32 (natToChars n) = some n := by
  obtain ⟨c, t, hct⟩ : ∃ c t, natToChars n = c :: t := by
    cases hn : natToChars n with
    | nil => exact absurd hn (natToChars_ne_nil n)
    | cons c t => exact ⟨c, t, rfl⟩
  have hcdigit : c.isDigit = true :=
    natToChars_all_digits n c (by rw [hct]; exact List.mem_cons_self c t)
  have hplus : c ≠ '+' := by
    intro heq
    rw [heq] at hcdigit
    exact absurd hcdigit (by decide)
  rw [hct]
  unfold parseU32
  rw [List.head?_cons, if_neg (by simpa using hplus)]
  unfold parseU32Digits
  rw [if_neg (by simp)]
  have hparse := parseDigitsAcc_natToChars n 0 []
  rw [List.append_nil, hct] at hparse
  rw [hparse]
  simp only [Nat.zero_mul, Nat.zero_add, parseDigitsAcc]
  rw [if_pos (by omega)]

/-- `split_once` at the first separator occurrence: with no separator in the
left part, the split returns the two surrounding pieces. -/
theorem splitOnce_append (sep : Char) :
    ∀ (l r : List Char), (∀ c ∈ l, c ≠ sep) →
      splitOnce sep (l ++ sep :: r) = some (l, r) := by
  intro l
  induction l with
  | nil => intro r _; simp [splitOnce]
  | cons c t ih =>
    intro r hns
    have hc : c ≠ sep := hns c (List.mem_cons_self c t)
    simp only [List.cons_append, splitOnce, if_neg hc, List.append_eq]
    rw [ih r (fun d hd => hns d (List.mem_cons_of_mem c hd))]
    rfl

/-- Digits are never the separator or marker characters of the `ShardUId`
string form. -/
theorem isDigit_ne (c : Char) (h : c.isDigit = true) :
    c ≠ '.' ∧ c ≠ 'v' ∧ c ≠ 's' := by
  refine ⟨?_, ?_, ?_⟩ <;> intro heq <;> rw [heq] at h <;>
    exact absurd h (by decide)

/-- The little-endian `u32` byte codec round-trips. -/
theorem u32LeBytes_roundtrip (n : Nat) (h : n < 2 ^ 32) :
    u32FromLeBytes (u32ToLeBytes n) = n := by
  simp only [u32ToLeBytes, u32FromLeBytes, List.getD_cons_zero,
    List.getD_cons_succ]
  omega

/-- C7: ShardUId round-trips.  For every `u32` version and shard id, parsing
the display string `s<shard_id>.v<version>` returns the same `ShardUId`, and
decoding the 8-byte little-endian representation written by `to_bytes` returns
the same `ShardUId`. -/
theorem C7_shard_uid_roundtrips :
    ∀ (version shardId : Nat), version < 2 ^ 32 → shardId < 2 ^ 32 →
      ShardUId.fromChars (ShardUId.toChars ⟨version, shardId⟩) =
        Except.ok ⟨version, shardId⟩ ∧
      ShardUId.tryFromBytes (ShardUId.toBytes ⟨version, shardId⟩) =
        Except.ok ⟨version, shardId⟩ := by
  intro version shardId hv hs
  constructor
  · have hsplit : splitOnce '.'
        ('s' :: natToChars shardId ++ '.' :: 'v' :: natToChars version) =
        some ('s' :: natToChars shardId, 'v' :: natToChars version) := by
      apply splitOnce_append
      intro c hc
      rcases List.mem_cons.mp hc with hc | hc
      · rw [hc]; decide
      · exact (isDigit_ne c (natToChars_all_digits shardId c hc)).1
    show ShardUId.fromChars
        ('s' :: natToChars shardId ++ '.' :: 'v' :: natToChars version) = _
    unfold ShardUId.fromChars
    rw [hsplit]
    simp only [parseU32_natToChars version hv, parseU32_natToChars shardId hs]
  · simp only [ShardUId.toBytes, ShardUId.tryFromBytes]
    have hlen : (u32ToLeBytes version ++ u32ToLeBytes shardId).length = 8 :=
      rfl
    rw [if_neg (by rw [hlen]; trivial)]
    have htake : (u32ToLeBytes version ++ u32ToLeBytes shardId).take 4 =
        u32ToLeBytes version := by
      simp [u32ToLeBytes]
    have hdrop : (u32ToLeBytes version ++ u32ToLeBytes shardId).drop 4 =
        u32ToLeBytes shardId := by
      simp [u32ToLeBytes]
    rw [htake, hdrop, u32LeBytes_roundtrip version hv,
      u32LeBytes_roundtrip shardId hs]

/-- Witness for C7 at a concrete `ShardUId` with large `u32` components. -/
theorem C7_shard_uid_roundtrips_witness :
    ShardUId.fromChars (ShardUId.toChars ⟨3000000000, 4000000001⟩) =
      Except.ok ⟨3000000000, 4000000001⟩ ∧
    ShardUId.tryFromBytes (ShardUId.toBytes ⟨3000000000, 4000000001⟩) =
      Except.ok ⟨3000000000, 4000000001⟩ :=
  C7_shard_uid_roundtrips 3000000000 4000000001 (by norm_num) (by norm_num)

/-- Moving the element at position `m` to the front while writing `a` in its
place permutes consing `a` in front. -/
theorem set_cons_perm :
    ∀ (t : List α) (m : Nat) (a b : α), t.get? m = some b →
      List.Perm (b :: t.set m a) (a :: t) := by
  intro t
  induction t with
  | nil => intro m a b h; simp at h
  | cons x t1 ih =>
    intro m a b h
    cases m with
    | zero =>
      rw [List.get?_cons_zero, Option.some_inj] at h
      subst h
      rw [List.set_cons_zero]
      exact List.Perm.swap a x t1
    | succ m =>
      rw [List.get?_cons_succ] at h
      rw [List.set_cons_succ]
      exact ((List.Perm.swap x b (t1.set m a)).trans
        ((ih m a b h).cons x)).trans (List.Perm.swap a x t1)

/-- Writing each of two in-bounds elements at the other's position permutes
the list. -/
theorem set_set_perm :
    ∀ (l : List α) (i j : Nat) (a b : α),
      l.get? i = some a → l.get? j = some b →
      List.Perm ((l.set i b).set j a) l := by
  intro l
  induction l with
  | nil => intro i j a b hi _; simp at hi
  | cons x t ih =>
    intro i j a b hi hj
    cases i with
    | zero =>
      rw [List.get?_cons_zero, Option.some_inj] at hi
      subst hi
      cases j with
      | zero =>
        rw [List.get?_cons_zero, Option.some_inj] at hj
        subst hj
        simp [List.set_cons_zero]
      | succ m =>
        rw [List.get?_cons_succ] at hj
        rw [List.set_cons_zero, List.set_cons_succ]
        exact set_cons_perm t m x b hj
    | succ n =>
      rw [List.get?_cons_succ] at hi
      cases j with
      | zero =>
        rw [List.get?_cons_zero, Option.some_inj] at hj
        subst hj
        rw [List.set_cons_succ, List.set_cons_zero]
        exact set_cons_perm t n x a hi
      | succ m =>
        rw [List.get?_cons_succ] at hj
        rw [List.set_cons_succ, List.set_cons_succ]
        exact List.Perm.cons x (ih n m a b hi hj)

/-- A slice swap permutes the list. -/
theorem swapL_perm (l : List α) (i j : Nat) : List.Perm (swapL l i j) l := by
  unfold swapL
  cases hi : l.get? i with
  | none => exact List.Perm.refl l
  | some a =>
    cases hj : l.get? j with
    | none => exact List.Perm.refl l
    | some b => exact set_set_perm l i j a b hi hj

/-- Every state of the Fisher–Yates loop permutes its input list. -/
theorem shuffleGo_perm :
    ∀ (i : Nat) (l : List α) (r : RngState),
      List.Perm (shuffleGo l i r).1 l := by
  intro i
  induction i with
  | zero => intro l r; exact List.Perm.refl l
  | succ j ih =>
    intro l r
    exact (ih (swapL l (j + 1) (r.draw (j + 2)).1) (r.draw (j + 2)).2).trans
      (swapL_perm l (j + 1) _)

/-- `shuffle` returns a permutation of its input. -/
theorem shuffle_perm (l : List α) (r : RngState) :
    List.Perm (shuffle l r).1 l :=
  shuffleGo_perm (l.length - 1) l r

/-- The step iterator's fuel is irrelevant once it covers the remaining
range. -/
theorem stepGo_congr (len k : Nat) (_hk : 0 < k) :
    ∀ fuel fuel1 s, len - s ≤ fuel → len - s ≤ fuel1 →
      stepGo len k fuel s = stepGo len k fuel1 s := by
  intro fuel
  induction fuel with
  | zero =>
    intro fuel1 s h h1
    cases fuel1 with
    | zero => rfl
    | succ fuel1 =>
      simp only [stepGo]
      rw [if_neg (by omega)]
  | succ fuel ih =>
    intro fuel1 s h h1
    cases fuel1 with
    | zero =>
      simp only [stepGo]
      rw [if_neg (by omega)]
    | succ fuel1 =>
      simp only [stepGo]
      by_cases hs : s < len
      · rw [if_pos hs, if_pos hs, ih fuel1 (s + k) (by omega) (by omega)]
      · rw [if_neg hs, if_neg hs]

/-- The one-step unfolding of `(start..len).step_by(step)` for a positive
step. -/
theorem stepIndices_unfold (s len k : Nat) (hk : 0 < k) :
    stepIndices s len k =
      if s < len then s :: stepIndices (s + k) len k else [] := by
  unfold stepIndices
  by_cases hs : s < len
  · obtain ⟨m, hm⟩ : ∃ m, len - s = m + 1 := ⟨len - s - 1, by omega⟩
    rw [hm, if_pos hs]
    simp only [stepGo]
    rw [if_pos hs]
    rw [stepGo_congr len k hk m (len - (s + k)) (s + k) (by omega) (by omega)]
  · rw [if_neg hs]
    obtain hm : len - s = 0 := by omega
    rw [hm]
    rfl

/-- With the same residue and a strictly greater value, a full step fits in
between. -/
theorem step_le_of_mod_eq (s len k : Nat) (_hk : 0 < k) (hlt : s < len)
    (hmod : len % k = s % k) : s + k ≤ len := by
  have h1 := Nat.div_add_mod len k
  have h2 := Nat.div_add_mod s k
  have hdiv : s / k < len / k := by
    by_contra hle
    have := Nat.mul_le_mul_left k (Nat.le_of_not_lt hle)
    omega
  have := Nat.mul_le_mul_left k hdiv
  rw [Nat.mul_succ] at this
  omega

/-- Extending the range by one element appends it to exactly one step list:
the one whose start shares the new index's residue. -/
theorem stepIndices_snoc (k len : Nat) (hk : 0 < k) :
    ∀ s, stepIndices s (len + 1) k =
      stepIndices s len k ++
        (if s ≤ len ∧ len % k = s % k then [len] else []) := by
  have boundary : ∀ s, ¬ s < len →
      stepIndices s (len + 1) k =
        stepIndices s len k ++
          (if s ≤ len ∧ len % k = s % k then [len] else []) := by
    intro s hs
    rw [stepIndices_unfold s (len + 1) k hk, stepIndices_unfold s len k hk,
      if_neg hs]
    by_cases hsl : s = len
    · subst hsl
      rw [if_pos (by omega), stepIndices_unfold (s + k) (s + 1) k hk,
        if_neg (by omega), if_pos (by simp)]
      rfl
    · rw [if_neg (by omega), if_neg (by omega)]
      rfl
  have main : ∀ fuel s, len - s ≤ fuel →
      stepIndices s (len + 1) k =
        stepIndices s len k ++
          (if s ≤ len ∧ len % k = s % k then [len] else []) := by
    intro fuel
    induction fuel with
    | zero => intro s h; exact boundary s (by omega)
    | succ fuel ih =>
      intro s h
      by_cases hs : s < len
      · rw [stepIndices_unfold s (len + 1) k hk, if_pos (by omega),
          ih (s + k) (by omega), stepIndices_unfold s len k hk, if_pos hs]
        have hcond : (s + k ≤ len ∧ len % k = (s + k) % k) ↔
            (s ≤ len ∧ len % k = s % k) := by
          rw [Nat.add_mod_right]
          constructor
          · rintro ⟨h1, h2⟩; exact ⟨by omega, h2⟩
          · rintro ⟨h1, h2⟩
            exact ⟨step_le_of_mod_eq s len k hk hs h2, h2⟩
        by_cases hc : s ≤ len ∧ len % k = s % k
        · rw [if_pos (hcond.mpr hc), if_pos hc]
          rfl
        · rw [if_neg (fun hx => hc (hcond.mp hx)), if_neg hc]
          rfl
      · exact boundary s hs
  intro s
  exact main (len - s) s (le_refl _)

/-- Summing an indicator supported at a single point of `0..k`. -/
theorem sum_map_ite_range :
    ∀ (k c x : Nat), c < k →
      ((List.range k).map (fun s => if s = c then x else 0)).sum = x := by
  intro k
  induction k with
  | zero => intro c x h; omega
  | succ k ih =>
    intro c x h
    rw [List.range_succ, List.map_append, List.sum_append]
    by_cases hc : c < k
    · rw [ih c x hc]
      have : ¬ k = c := by omega
      simp [this]
    · have hck : c = k := by omega
      subst hck
      have hzero : ((List.range c).map (fun s => if s = c then x else 0)).sum
          = 0 := by
        apply List.sum_eq_zero
        intro y hy
        rw [List.mem_map] at hy
        obtain ⟨s, hs, hsy⟩ := hy
        rw [List.mem_range] at hs
        rw [← hsy, if_neg (by omega)]
      rw [hzero]
      simp

/-- Splitting a pointwise sum of two maps over a list. -/
theorem sum_map_add (l : List Nat) (f g : Nat → Nat) :
    (l.map (fun s => f s + g s)).sum = (l.map f).sum + (l.map g).sum := by
  induction l with
  | nil => rfl
  | cons a t ih => simp only [List.map_cons, List.sum_cons, ih]; omega

/-- The step lists for the starts `0..k` partition `0..len`: summing any
function over the buckets equals summing it over the whole range. -/
theorem sum_over_buckets (f : Nat → Nat) (k : Nat) (hk : 0 < k) :
    ∀ len, ((List.range k).map
        (fun s => ((stepIndices s len k).map f).sum)).sum =
      ((List.range len).map f).sum := by
  intro len
  induction len with
  | zero =>
    have : ∀ s, stepIndices s 0 k = [] := by
      intro s
      rw [stepIndices_unfold s 0 k hk, if_neg (by omega)]
    simp [this]
  | succ len ih =>
    have hsnoc := stepIndices_snoc k len hk
    have hmap : ((List.range k).map
        (fun s => ((stepIndices s (len + 1) k).map f).sum)) =
        ((List.range k).map
          (fun s => ((stepIndices s len k).map f).sum +
            (if s = len % k then f len else 0))) := by
      apply List.map_congr_left
      intro s hs
      rw [List.mem_range] at hs
      rw [hsnoc s, List.map_append, List.sum_append]
      congr 1
      by_cases hc : s ≤ len ∧ len % k = s % k
      · rw [if_pos hc]
        have : s = len % k := by
          obtain ⟨h1, h2⟩ := hc
          rw [Nat.mod_eq_of_lt hs] at h2
          omega
        rw [if_pos this]
        simp
      · rw [if_neg hc]
        have : ¬ s = len % k := by
          intro hs1
          apply hc
          subst hs1
          exact ⟨Nat.mod_le len k, (Nat.mod_mod_of_dvd len dvd_rfl).symm⟩
        rw [if_neg this]
        rfl
    rw [hmap, sum_map_add, ih, sum_map_ite_range k (len % k) (f len)
      (Nat.mod_lt len hk), List.range_succ, List.map_append, List.sum_append]
    simp

/-- One map bump adds its amount to exactly its validator's credit. -/
theorem credit_bump (v w amt : Nat) :
    ∀ l : List (Nat × Nat),
      credit v (bump l w amt) =
        credit v l + (if w = v then amt else 0) := by
  intro l
  induction l with
  | nil => simp [bump, credit]
  | cons e rest ih =>
    obtain ⟨w1, b⟩ := e
    by_cases h : w1 = w
    · subst h
      rw [show bump ((w1, b) :: rest) w1 amt = (w1, b + amt) :: rest from by
        simp [bump]]
      simp only [credit, List.map_cons, List.sum_cons]
      by_cases hv : w1 = v
      · rw [if_pos hv, if_pos hv, if_pos hv]; omega
      · rw [if_neg hv, if_neg hv, if_neg hv]; omega
    · rw [show bump ((w1, b) :: rest) w amt = (w1, b) :: bump rest w amt from by
        simp [bump, h]]
      simp only [credit, List.map_cons, List.sum_cons]
      have := ih
      simp only [credit] at this
      omega

/-- A bump either keeps the key set or appends the new key. -/
theorem keys_bump (w amt : Nat) :
    ∀ l : List (Nat × Nat),
      (bump l w amt).map Prod.fst =
        if w ∈ l.map Prod.fst then l.map Prod.fst
        else l.map Prod.fst ++ [w] := by
  intro l
  induction l with
  | nil => simp [bump]
  | cons e rest ih =>
    obtain ⟨w1, b⟩ := e
    by_cases h : w1 = w
    · subst h
      simp [bump]
    · simp only [bump, if_neg h, List.map_cons, ih]
      by_cases hm : w ∈ rest.map Prod.fst
      · rw [if_pos hm, if_pos (by simp [hm])]
      · rw [if_neg hm, if_neg (by simp [hm]; omega)]
        rfl

/-- Bumping preserves distinctness of the keys. -/
theorem nodup_keys_bump (w amt : Nat) (l : List (Nat × Nat))
    (h : (l.map Prod.fst).Nodup) : ((bump l w amt).map Prod.fst).Nodup := by
  rw [keys_bump]
  by_cases hm : w ∈ l.map Prod.fst
  · rw [if_pos hm]; exact h
  · rw [if_neg hm]
    rw [List.nodup_append]
    exact ⟨h, List.nodup_singleton w, by simpa using hm⟩

/-- With distinct keys, indexing the map at an entry's key returns the entry's
value. -/
theorem lookupA_mem :
    ∀ (l : List (Nat × Nat)) (w b : Nat), (l.map Prod.fst).Nodup →
      (w, b) ∈ l → lookupA l w = b := by
  intro l
  induction l with
  | nil => intro w b _ hm; simp at hm
  | cons e rest ih =>
    obtain ⟨w1, b1⟩ := e
    intro w b hnd hm
    rw [List.map_cons, List.nodup_cons] at hnd
    obtain ⟨hw1, hrest⟩ := hnd
    rcases List.mem_cons.mp hm with he | he
    · rw [Prod.mk.injEq] at he
      obtain ⟨rfl, rfl⟩ := he
      simp [lookupA]
    · have hne : w1 ≠ w := by
        intro heq
        subst heq
        exact hw1 (by simpa using List.mem_map_of_mem Prod.fst he)
      simp only [lookupA, if_neg hne]
      exact ih w b hrest he

/-- Credits of validators absent from the keys are zero. -/
theorem credit_eq_zero_of_not_mem (v : Nat) :
    ∀ l : List (Nat × Nat), v ∉ l.map Prod.fst → credit v l = 0 := by
  intro l
  induction l with
  | nil => intro _; rfl
  | cons e rest ih =>
    obtain ⟨w, b⟩ := e
    intro h
    simp only [List.map_cons, List.mem_cons] at h
    push_neg at h
    have hne : ¬ (w = v) := fun hw => h.1 hw.symm
    simp only [credit, List.map_cons, List.sum_cons, if_neg hne]
    have := ih h.2
    simp only [credit] at this
    omega

/-- With distinct keys, the credit of a validator is its `find?` entry's
weight (zero when absent). -/
theorem credit_eq_find (v : Nat) :
    ∀ l : List (Nat × Nat), (l.map Prod.fst).Nodup →
      credit v l =
        (match l.find? (fun e => e.1 == v) with
         | some e => e.2
         | none => 0) := by
  intro l
  induction l with
  | nil => intro _; rfl
  | cons e rest ih =>
    obtain ⟨w, b⟩ := e
    intro hnd
    rw [List.map_cons, List.nodup_cons] at hnd
    obtain ⟨hw, hrest⟩ := hnd
    by_cases hv : w = v
    · subst hv
      rw [List.find?_cons_of_pos _ (by simp)]
      simp only [credit, List.map_cons, List.sum_cons]
      rw [if_true]
      have hzero : credit w rest = 0 :=
        credit_eq_zero_of_not_mem w rest hw
      simp only [credit] at hzero
      omega
    · rw [List.find?_cons_of_neg _ (by simp [hv])]
      simp only [credit, List.map_cons, List.sum_cons, if_neg hv]
      have := ih hrest
      simp only [credit] at this
      omega

/-- `modifyAt` keeps the length. -/
theorem length_modifyAt (f : α → α) :
    ∀ (l : List α) (i : Nat), (modifyAt l i f).length = l.length := by
  intro l
  induction l with
  | nil => intro i; rfl
  | cons a t ih =>
    intro i
    cases i with
    | zero => rfl
    | succ i => simp only [modifyAt, List.length_cons, ih]

/-- Total credit through an in-bounds in-place update, in cancellation-free
form. -/
theorem totalCredit_modifyAt (v : Nat) (f : List (Nat × Nat) → List (Nat × Nat)) :
    ∀ (l : List (List (Nat × Nat))) (i : Nat), i < l.length →
      totalCredit v (modifyAt l i f) + credit v (l.getD i []) =
        totalCredit v l + credit v (f (l.getD i [])) := by
  intro l
  induction l with
  | nil => intro i h; simp at h
  | cons a t ih =>
    intro i h
    cases i with
    | zero =>
      simp only [modifyAt, totalCredit, List.map_cons, List.sum_cons,
        List.getD_cons_zero]
      omega
    | succ i =>
      simp only [modifyAt, totalCredit, List.map_cons, List.sum_cons,
        List.getD_cons_succ]
      have := ih i (by simpa using h)
      simp only [totalCredit] at this
      omega

/-- A member-wise property survives an in-place update by a
property-preserving function. -/
theorem all_modifyAt (P : α → Prop) (f : α → α)
    (hf : ∀ x, P x → P (f x)) :
    ∀ (l : List α) (i : Nat), (∀ x ∈ l, P x) →
      ∀ x ∈ modifyAt l i f, P x := by
  intro l
  induction l with
  | nil => intro i h x hx; simp [modifyAt] at hx
  | cons a t ih =>
    intro i h x hx
    cases i with
    | zero =>
      rcases List.mem_cons.mp hx with hx | hx
      · rw [hx]; exact hf a (h a (List.mem_cons_self a t))
      · exact h x (List.mem_cons_of_mem a hx)
    | succ i =>
      rcases List.mem_cons.mp hx with hx | hx
      · rw [hx]; exact h a (List.mem_cons_self a t)
      · exact ih i (fun y hy => h y (List.mem_cons_of_mem a hy)) x hx

/-- Reading every position of a list through `getD` reproduces the list. -/
theorem map_getD_range (d : α) :
    ∀ l : List α, (List.range l.length).map (fun i => l.getD i d) = l := by
  intro l
  apply List.ext_getElem (by simp)
  intro n h1 h2
  simp only [List.getElem_map, List.getElem_range]
  rw [List.getD_eq_getElem?_getD, List.getElem?_eq_getElem h2]
  rfl

/-- Out-of-range `getD` yields the default. -/
theorem getD_default (d : α) :
    ∀ (l : List α) (n : Nat), l.length ≤ n → l.getD n d = d := by
  intro l
  induction l with
  | nil => intro n _; cases n <;> rfl
  | cons a t ih =>
    intro n h
    cases n with
    | zero => simp at h
    | succ n => simpa using ih n (by simpa using h)

/-- In-range `getD` returns a member of the list. -/
theorem getD_mem (d : α) (l : List α) (n : Nat) (h : n < l.length) :
    l.getD n d ∈ l := by
  rw [List.getD_eq_getElem?_getD, List.getElem?_eq_getElem h]
  exact List.getElem_mem h

/-- The mandate-bump fold keeps the assignment's length. -/
theorem length_applyMandateBumps (sm : List Nat) (price target : Nat) :
    ∀ (idxs : List Nat) (assign : List (List (Nat × Nat))),
      (applyMandateBumps sm price target idxs assign).length =
        assign.length := by
  intro idxs
  induction idxs with
  | nil => intro assign; rfl
  | cons idx rest ih =>
    intro assign
    unfold applyMandateBumps
    rw [List.foldl_cons]
    have := ih (modifyAt assign target
      (fun m => bump m (sm.getD idx 0) price))
    unfold applyMandateBumps at this
    rw [this, length_modifyAt]

/-- The partial-bump fold keeps the assignment's length. -/
theorem length_applyPartialBumps (sp : List (Nat × Nat)) (target : Nat) :
    ∀ (idxs : List Nat) (assign : List (List (Nat × Nat))),
      (applyPartialBumps sp target idxs assign).length = assign.length := by
  intro idxs
  induction idxs with
  | nil => intro assign; rfl
  | cons idx rest ih =>
    intro assign
    unfold applyPartialBumps
    rw [List.foldl_cons]
    have := ih (modifyAt assign target
      (fun m => bump m (sp.getD idx (0, 0)).1 (sp.getD idx (0, 0)).2))
    unfold applyPartialBumps at this
    rw [this, length_modifyAt]

/-- Total credit gained by one shard's mandate bumps: the stake price per
index whose shuffled mandate names the validator. -/
theorem totalCredit_applyMandateBumps (v : Nat) (sm : List Nat)
    (price target : Nat) :
    ∀ (idxs : List Nat) (assign : List (List (Nat × Nat))),
      target < assign.length →
      totalCredit v (applyMandateBumps sm price target idxs assign) =
        totalCredit v assign +
          (idxs.map
            (fun idx => if sm.getD idx 0 = v then price else 0)).sum := by
  intro idxs
  induction idxs with
  | nil => intro assign _; simp [applyMandateBumps]
  | cons idx rest ih =>
    intro assign htarget
    unfold applyMandateBumps
    rw [List.foldl_cons]
    have hstep := ih (modifyAt assign target
      (fun m => bump m (sm.getD idx 0) price))
      (by rw [length_modifyAt]; exact htarget)
    unfold applyMandateBumps at hstep
    rw [hstep]
    have hmod := totalCredit_modifyAt v
      (fun m => bump m (sm.getD idx 0) price) assign target htarget
    rw [credit_bump] at hmod
    rw [List.map_cons, List.sum_cons]
    omega

/-- Total credit gained by one shard's partial bumps: the partial weight per
index whose shuffled partial names the validator. -/
theorem totalCredit_applyPartialBumps (v : Nat) (sp : List (Nat × Nat))
    (target : Nat) :
    ∀ (idxs : List Nat) (assign : List (List (Nat × Nat))),
      target < assign.length →
      totalCredit v (applyPartialBumps sp target idxs assign) =
        totalCredit v assign +
          (idxs.map (fun idx =>
            if (sp.getD idx (0, 0)).1 = v then (sp.getD idx (0, 0)).2
            else 0)).sum := by
  intro idxs
  induction idxs with
  | nil => intro assign _; simp [applyPartialBumps]
  | cons idx rest ih =>
    intro assign htarget
    unfold applyPartialBumps
    rw [List.foldl_cons]
    have hstep := ih (modifyAt assign target
      (fun m => bump m (sp.getD idx (0, 0)).1 (sp.getD idx (0, 0)).2))
      (by rw [length_modifyAt]; exact htarget)
    unfold applyPartialBumps at hstep
    rw [hstep]
    have hmod := totalCredit_modifyAt v
      (fun m => bump m (sp.getD idx (0, 0)).1 (sp.getD idx (0, 0)).2)
      assign target htarget
    rw [credit_bump] at hmod
    rw [List.map_cons, List.sum_cons]
    omega

/-- The mandate-bump fold preserves key distinctness of every shard map. -/
theorem nodupKeys_applyMandateBumps (sm : List Nat) (price target : Nat) :
    ∀ (idxs : List Nat) (assign : List (List (Nat × Nat))),
      (∀ sa ∈ assign, (sa.map Prod.fst).Nodup) →
      ∀ sa ∈ applyMandateBumps sm price target idxs assign,
        (sa.map Prod.fst).Nodup := by
  intro idxs
  induction idxs with
  | nil => intro assign h; exact h
  | cons idx rest ih =>
    intro assign h
    unfold applyMandateBumps
    rw [List.foldl_cons]
    have hmod := all_modifyAt (fun sa => (sa.map Prod.fst).Nodup)
      (fun m => bump m (sm.getD idx 0) price)
      (fun m hm => nodup_keys_bump _ _ m hm) assign target h
    have := ih (modifyAt assign target
      (fun m => bump m (sm.getD idx 0) price)) hmod
    unfold applyMandateBumps at this
    exact this

/-- The partial-bump fold preserves key distinctness of every shard map. -/
theorem nodupKeys_applyPartialBumps (sp : List (Nat × Nat)) (target : Nat) :
    ∀ (idxs : List Nat) (assign : List (List (Nat × Nat))),
      (∀ sa ∈ assign, (sa.map Prod.fst).Nodup) →
      ∀ sa ∈ applyPartialBumps sp target idxs assign,
        (sa.map Prod.fst).Nodup := by
  intro idxs
  induction idxs with
  | nil => intro assign h; exact h
  | cons idx rest ih =>
    intro assign h
    unfold applyPartialBumps
    rw [List.foldl_cons]
    have hmod := all_modifyAt (fun sa => (sa.map Prod.fst).Nodup)
      (fun m => bump m (sp.getD idx (0, 0)).1 (sp.getD idx (0, 0)).2)
      (fun m hm => nodup_keys_bump _ _ m hm) assign target h
    have := ih (modifyAt assign target
      (fun m => bump m (sp.getD idx (0, 0)).1 (sp.getD idx (0, 0)).2)) hmod
    unfold applyPartialBumps at this
    exact this

/-- A shard alias is always a valid shard: in range it is a member of the
permuted shard ids, out of range it is the default `0`. -/
theorem getAlias_lt (k : Nat) (hk : 0 < k) (ids : List Nat)
    (hperm : List.Perm ids (List.range k)) : ∀ s, getAlias ids s < k := by
  intro s
  by_cases hs : s < ids.length
  · have hmem := getD_mem 0 ids s hs
    have := hperm.mem_iff.mp hmem
    rw [List.mem_range] at this
    exact this
  · unfold getAlias
    rw [getD_default 0 ids s (by omega)]
    exact hk

/-- Summing the price over the positions naming one validator counts its
occurrences. -/
theorem sum_map_ite_eq_count (v p : Nat) :
    ∀ l : List Nat, (l.map (fun x => if x = v then p else 0)).sum =
      l.count v * p := by
  intro l
  induction l with
  | nil => simp
  | cons a t ih =>
    rw [List.map_cons, List.sum_cons, ih, List.count_cons]
    by_cases h : a = v
    · rw [if_pos h, if_pos (by simp [h]), Nat.add_mul, Nat.one_mul]
      omega
    · rw [if_neg h, if_neg (by simp [h]), Nat.add_zero]
      omega

/-- The total credit after the whole distribution loop over a list of shard
ids, relative to the starting assignment. -/
theorem totalCredit_distribute_fold (v : Nat) (sm : List Nat)
    (sp : List (Nat × Nat)) (aliasM aliasP : List Nat) (price k : Nat)
    (hM : ∀ s, getAlias aliasM s < k) (hP : ∀ s, getAlias aliasP s < k) :
    ∀ (shardIds : List Nat) (assign : List (List (Nat × Nat))),
      assign.length = k →
      totalCredit v (shardIds.foldl
        (fun assign shardId =>
          applyPartialBumps sp (getAlias aliasP shardId)
            (stepIndices shardId sp.length k)
            (applyMandateBumps sm price (getAlias aliasM shardId)
              (stepIndices shardId sm.length k) assign)) assign) =
      totalCredit v assign +
        (shardIds.map (fun s =>
          ((stepIndices s sm.length k).map
            (fun idx => if sm.getD idx 0 = v then price else 0)).sum +
          ((stepIndices s sp.length k).map
            (fun idx => if (sp.getD idx (0, 0)).1 = v then
              (sp.getD idx (0, 0)).2 else 0)).sum)).sum := by
  intro shardIds
  induction shardIds with
  | nil => intro assign _; simp
  | cons s rest ih =>
    intro assign hlen
    rw [List.foldl_cons]
    have hlen1 : (applyMandateBumps sm price (getAlias aliasM s)
        (stepIndices s sm.length k) assign).length = k := by
      rw [length_applyMandateBumps]; exact hlen
    have hlen2 : (applyPartialBumps sp (getAlias aliasP s)
        (stepIndices s sp.length k)
        (applyMandateBumps sm price (getAlias aliasM s)
          (stepIndices s sm.length k) assign)).length = k := by
      rw [length_applyPartialBumps]; exact hlen1
    rw [ih _ hlen2]
    rw [totalCredit_applyPartialBumps v sp (getAlias aliasP s) _ _
      (by rw [hlen1]; exact hP s)]
    rw [totalCredit_applyMandateBumps v sm price (getAlias aliasM s) _ _
      (by rw [hlen]; exact hM s)]
    rw [List.map_cons, List.sum_cons]
    omega

/-- Every shard map produced by the distribution loop has distinct keys. -/
theorem nodupKeys_distribute_fold (sm : List Nat) (sp : List (Nat × Nat))
    (aliasM aliasP : List Nat) (price k : Nat) :
    ∀ (shardIds : List Nat) (assign : List (List (Nat × Nat))),
      (∀ sa ∈ assign, (sa.map Prod.fst).Nodup) →
      ∀ sa ∈ (shardIds.foldl
        (fun assign shardId =>
          applyPartialBumps sp (getAlias aliasP shardId)
            (stepIndices shardId sp.length k)
            (applyMandateBumps sm price (getAlias aliasM shardId)
              (stepIndices shardId sm.length k) assign)) assign),
        (sa.map Prod.fst).Nodup := by
  intro shardIds
  induction shardIds with
  | nil => intro assign h; exact h
  | cons s rest ih =>
    intro assign h
    rw [List.foldl_cons]
    exact ih _ (nodupKeys_applyPartialBumps sp (getAlias aliasP s) _ _
      (nodupKeys_applyMandateBumps sm price (getAlias aliasM s) _ _ h))

/-- The total credit of a validator over the whole distributed assignment:
price times its shuffled-mandate count plus its shuffled-partial credit. -/
theorem totalCredit_distribute (v : Nat) (sm : List Nat)
    (sp : List (Nat × Nat)) (aliasM aliasP : List Nat) (price k : Nat)
    (hk : 0 < k) (hM : ∀ s, getAlias aliasM s < k)
    (hP : ∀ s, getAlias aliasP s < k) :
    totalCredit v (distribute sm sp aliasM aliasP price k) =
      sm.count v * price + credit v sp := by
  rw [show distribute sm sp aliasM aliasP price k =
    (List.range k).foldl
      (fun assign shardId =>
        applyPartialBumps sp (getAlias aliasP shardId)
          (stepIndices shardId sp.length k)
          (applyMandateBumps sm price (getAlias aliasM shardId)
            (stepIndices shardId sm.length k) assign))
      (List.replicate k []) from rfl]
  rw [totalCredit_distribute_fold v sm sp aliasM aliasP price k hM hP
    (List.range k) (List.replicate k []) (by simp)]
  have hzero : totalCredit v (List.replicate k ([] : List (Nat × Nat))) = 0 := by
    unfold totalCredit
    apply List.sum_eq_zero
    intro x hx
    rw [List.mem_map] at hx
    obtain ⟨sa, hsa, hx⟩ := hx
    rw [List.eq_of_mem_replicate hsa] at hx
    rw [← hx]
    rfl
  rw [hzero, Nat.zero_add, sum_map_add, sum_over_buckets _ k hk,
    sum_over_buckets _ k hk]
  congr 1
  · rw [show (fun idx => if sm.getD idx 0 = v then price else 0) =
      ((fun x => if x = v then price else 0) ∘ (fun idx => sm.getD idx 0))
      from rfl]
    rw [← List.map_map, map_getD_range 0 sm, sum_map_ite_eq_count]
  · rw [show (fun idx => if (sp.getD idx (0, 0)).1 = v then
        (sp.getD idx (0, 0)).2 else 0) =
      ((fun e => if e.1 = v then e.2 else 0) ∘
        (fun idx => sp.getD idx (0, 0))) from rfl]
    rw [← List.map_map, map_getD_range (0, 0) sp]
    rfl

/-- Relabelling a shard map along any permutation of its keys preserves every
validator's credit. -/
theorem credit_relabel (v : Nat) (sa : List (Nat × Nat)) (ks : List Nat)
    (hnd : (sa.map Prod.fst).Nodup)
    (hperm : List.Perm ks (sa.map Prod.fst)) :
    credit v (ks.map (fun w => (w, lookupA sa w))) = credit v sa := by
  unfold credit
  rw [List.map_map]
  have hcomp : ((fun e => if (e : Nat × Nat).1 = v then e.2 else 0) ∘
      (fun w => (w, lookupA sa w))) =
      (fun w => if w = v then lookupA sa w else 0) := rfl
  rw [hcomp,
    (hperm.map (fun w => if w = v then lookupA sa w else 0)).sum_eq,
    List.map_map]
  apply congrArg List.sum
  apply List.map_congr_left
  intro e he
  simp only [Function.comp]
  by_cases hv : e.1 = v
  · rw [if_pos hv, if_pos hv,
      lookupA_mem sa e.1 e.2 hnd (by rw [Prod.mk.eta]; exact he)]
  · rw [if_neg hv, if_neg hv]

/-- Total credit splits over the head shard. -/
theorem totalCredit_cons (v : Nat) (a : List (Nat × Nat))
    (l : List (List (Nat × Nat))) :
    totalCredit v (a :: l) = credit v a + totalCredit v l := by
  simp [totalCredit]

/-- The total credit of the ordering loop over any list of shard ids: the
per-shard sort and rng shuffle permute each shard's validators without
changing any credit. -/
theorem totalCredit_orderGo (v : Nat) (assign : List (List (Nat × Nat)))
    (hnd : ∀ s, ((assign.getD s []).map Prod.fst).Nodup) :
    ∀ (shardIds : List Nat) (r : RngState),
      totalCredit v (orderGo assign r shardIds) =
        (shardIds.map (fun s => credit v (assign.getD s []))).sum := by
  intro shardIds
  induction shardIds with
  | nil => intro r; rfl
  | cons s rest ih =>
    intro r
    have hunf : orderGo assign r (s :: rest) =
        ((shuffle (List.insertionSort (· ≤ ·)
            ((assign.getD s []).map Prod.fst)) r).1.map
          (fun w => (w, lookupA (assign.getD s []) w))) ::
        orderGo assign
          (shuffle (List.insertionSort (· ≤ ·)
            ((assign.getD s []).map Prod.fst)) r).2 rest := rfl
    rw [hunf, totalCredit_cons, ih, List.map_cons, List.sum_cons,
      credit_relabel v (assign.getD s []) _ (hnd s)
        ((shuffle_perm _ r).trans (List.perm_insertionSort (· ≤ ·) _))]

/-- The total credit is the sum of the per-shard credits read positionally. -/
theorem totalCredit_eq_sum_getD (v : Nat)
    (assign : List (List (Nat × Nat))) :
    totalCredit v assign =
      ((List.range assign.length).map
        (fun s => credit v (assign.getD s []))).sum := by
  unfold totalCredit
  rw [show (fun s => credit v (assign.getD s [])) =
    ((credit v) ∘ (fun s => assign.getD s [])) from rfl]
  rw [← List.map_map, map_getD_range]

/-- The distribution loop keeps the assignment's length. -/
theorem length_distribute_fold (sm : List Nat) (sp : List (Nat × Nat))
    (aliasM aliasP : List Nat) (price k : Nat) :
    ∀ (shardIds : List Nat) (assign : List (List (Nat × Nat))),
      (shardIds.foldl
        (fun assign shardId =>
          applyPartialBumps sp (getAlias aliasP shardId)
            (stepIndices shardId sp.length k)
            (applyMandateBumps sm price (getAlias aliasM shardId)
              (stepIndices shardId sm.length k) assign)) assign).length =
        assign.length := by
  intro shardIds
  induction shardIds with
  | nil => intro assign; rfl
  | cons s rest ih =>
    intro assign
    rw [List.foldl_cons, ih, length_applyPartialBumps,
      length_applyMandateBumps]

/-- The distributed assignment has one map per shard. -/
theorem length_distribute (sm : List Nat) (sp : List (Nat × Nat))
    (aliasM aliasP : List Nat) (price k : Nat) :
    (distribute sm sp aliasM aliasP price k).length = k := by
  rw [show distribute sm sp aliasM aliasP price k =
    (List.range k).foldl
      (fun assign shardId =>
        applyPartialBumps sp (getAlias aliasP shardId)
          (stepIndices shardId sp.length k)
          (applyMandateBumps sm price (getAlias aliasM shardId)
            (stepIndices shardId sm.length k) assign))
      (List.replicate k []) from rfl]
  rw [length_distribute_fold]
  simp

/-- Every per-shard map of the distributed assignment (read positionally) has
distinct keys. -/
theorem nodupKeys_distribute (sm : List Nat) (sp : List (Nat × Nat))
    (aliasM aliasP : List Nat) (price k : Nat) :
    ∀ s, (((distribute sm sp aliasM aliasP price k).getD s []).map
      Prod.fst).Nodup := by
  intro s
  by_cases hs : s < (distribute sm sp aliasM aliasP price k).length
  · apply nodupKeys_distribute_fold sm sp aliasM aliasP price k
      (List.range k) (List.replicate k [])
      (by
        intro sa hsa
        rw [List.eq_of_mem_replicate hsa]
        simp)
    rw [show (List.range k).foldl
      (fun assign shardId =>
        applyPartialBumps sp (getAlias aliasP shardId)
          (stepIndices shardId sp.length k)
          (applyMandateBumps sm price (getAlias aliasM shardId)
            (stepIndices shardId sm.length k) assign))
      (List.replicate k []) = distribute sm sp aliasM aliasP price k from rfl]
    exact getD_mem [] _ s hs
  · rw [getD_default [] _ s (by omega)]
    simp

/-- C1: Stake conservation of sampling.  For every `ValidatorMandates` value
(with the constructor invariants that the shard count is positive and each
validator has at most one partial entry) and every rng state, one `sample`
call credits every validator, summed over all shards, exactly its mandate
count times the stake per mandate plus its partial weight (the second
component of its `partials` entry, or zero without an entry). -/
theorem C1_sample_stake_conservation :
    ∀ (m : ValidatorMandates) (r : RngState) (v : Nat),
      0 < m.config.numShards →
      (m.partials.map Prod.fst).Nodup →
      totalCredit v (m.sample r) =
        m.mandates.count v * m.stakePerMandate +
          (match m.partials.find? (fun e => e.1 == v) with
           | some e => e.2
           | none => 0) := by
  intro m r v hk hnd
  rcases hA : shuffledShardIds m.config.numShards r with ⟨aliasM, r1⟩
  rcases hB : shuffledShardIds m.config.numShards r1 with ⟨aliasP, r2⟩
  rcases hC : shuffle m.mandates r2 with ⟨sm, r3⟩
  rcases hD : shuffle m.partials r3 with ⟨sp, r4⟩
  have hsample0 : m.sample r =
      orderGo
        (distribute
          (shuffle m.mandates (shuffledShardIds m.config.numShards
            (shuffledShardIds m.config.numShards r).2).2).1
          (shuffle m.partials (shuffle m.mandates
            (shuffledShardIds m.config.numShards
              (shuffledShardIds m.config.numShards r).2).2).2).1
          (shuffledShardIds m.config.numShards r).1
          (shuffledShardIds m.config.numShards
            (shuffledShardIds m.config.numShards r).2).1
          m.stakePerMandate m.config.numShards)
        (shuffle m.partials (shuffle m.mandates
          (shuffledShardIds m.config.numShards
            (shuffledShardIds m.config.numShards r).2).2).2).2
        (List.range m.config.numShards) := rfl
  have e1 : (shuffledShardIds m.config.numShards r).1 = aliasM := by rw [hA]
  have e2 : (shuffledShardIds m.config.numShards r).2 = r1 := by rw [hA]
  have e3 : (shuffledShardIds m.config.numShards r1).1 = aliasP := by rw [hB]
  have e4 : (shuffledShardIds m.config.numShards r1).2 = r2 := by rw [hB]
  have e5 : (shuffle m.mandates r2).1 = sm := by rw [hC]
  have e6 : (shuffle m.mandates r2).2 = r3 := by rw [hC]
  have e7 : (shuffle m.partials r3).1 = sp := by rw [hD]
  have e8 : (shuffle m.partials r3).2 = r4 := by rw [hD]
  have hsample : m.sample r =
      orderGo (distribute sm sp aliasM aliasP m.stakePerMandate
        m.config.numShards) r4 (List.range m.config.numShards) := by
    rw [hsample0, e2, e1, e4, e3, e6, e5, e8, e7]
  have hpermM : List.Perm aliasM (List.range m.config.numShards) := by
    have h := shuffle_perm (List.range m.config.numShards) r
    unfold shuffledShardIds at hA
    rw [hA] at h
    simpa using h
  have hpermP : List.Perm aliasP (List.range m.config.numShards) := by
    have h := shuffle_perm (List.range m.config.numShards) r1
    unfold shuffledShardIds at hB
    rw [hB] at h
    simpa using h
  have hpermSm : List.Perm sm m.mandates := by
    have h := shuffle_perm m.mandates r2
    rw [hC] at h
    simpa using h
  have hpermSp : List.Perm sp m.partials := by
    have h := shuffle_perm m.partials r3
    rw [hD] at h
    simpa using h
  rw [hsample,
    totalCredit_orderGo v _ (nodupKeys_distribute sm sp aliasM aliasP
      m.stakePerMandate m.config.numShards) (List.range m.config.numShards) r4]
  rw [show (List.range m.config.numShards) =
    (List.range (distribute sm sp aliasM aliasP m.stakePerMandate
      m.config.numShards).length) from by
    rw [length_distribute]]
  rw [← totalCredit_eq_sum_getD]
  rw [totalCredit_distribute v sm sp aliasM aliasP m.stakePerMandate
    m.config.numShards hk
    (getAlias_lt m.config.numShards hk aliasM hpermM)
    (getAlias_lt m.config.numShards hk aliasP hpermP)]
  rw [hpermSm.count_eq v]
  have hcredit : credit v sp = credit v m.partials := by
    unfold credit
    exact (hpermSp.map _).sum_eq
  rw [hcredit, credit_eq_find v m.partials hnd]

/-- Witness for C1 at a concrete input: two shards, price 5, mandates
`[0, 0, 1]`, one partial `(1, 3)`; validator 1 is credited `1 * 5 + 3 = 8`
in total by a sample with an arbitrary concrete rng stream. -/
theorem C1_sample_stake_conservation_witness :
    totalCredit 1
      ((⟨⟨2, 2⟩, 5, [0, 0, 1], [(1, 3)]⟩ : ValidatorMandates).sample
        ⟨fun n => n * 7 + 3, 0⟩) = 8 := by
  have h := C1_sample_stake_conservation
    ⟨⟨2, 2⟩, 5, [0, 0, 1], [(1, 3)]⟩ ⟨fun n => n * 7 + 3, 0⟩ 1
    (by decide) (by decide)
  rw [h]
  decide

/-- C2: Determinism of sampling.  Two `sample` calls on the same
`ValidatorMandates` whose rng states agree (same stream of draws, same
position) return identical assignments: the same per-shard vectors with the
same pairs in the same order. -/
theorem C2_sample_determinism :
    ∀ (m : ValidatorMandates) (f g : Nat → Nat) (pos : Nat),
      (∀ n, f n = g n) →
      m.sample ⟨f, pos⟩ = m.sample ⟨g, pos⟩ := by
  intro m f g pos h
  rw [show f = g from funext h]

/-- Witness for C2 at a concrete input: the streams `n + 2` and `2 + n` agree
pointwise, so the samples coincide. -/
theorem C2_sample_determinism_witness :
    (⟨⟨2, 2⟩, 5, [0, 0, 1], [(1, 3)]⟩ : ValidatorMandates).sample
      ⟨fun n => n + 2, 0⟩ =
    (⟨⟨2, 2⟩, 5, [0, 0, 1], [(1, 3)]⟩ : ValidatorMandates).sample
      ⟨fun n => 2 + n, 0⟩ :=
  C2_sample_determinism ⟨⟨2, 2⟩, 5, [0, 0, 1], [(1, 3)]⟩
    (fun n => n + 2) (fun n => 2 + n) 0 (fun n => Nat.add_comm n 2)
